import Mathlib

/- Shallow embedding of the SreemoyeePradhan/autocorrection-tool repository
   (src/utils.py, src/model.py, src/app.py) and proofs about its token-level
   diff engine, selective merge, code-block masking codec and provider
   response sanitization.  Texts are modelled as Lean strings (lists of
   characters), Python whitespace splitting with Char.isWhitespace, and
   Python floats as rationals. -/

set_option maxHeartbeats 1000000

/-! Python string helpers used by src/utils.py. -/

/-- Python list slicing l[i:j] for 0 ≤ i ≤ j (clamping beyond the length,
like Python). -/
def pySlice {α : Type} (l : List α) (i j : Nat) : List α :=
  (l.drop i).take (j - i)

/-- One step of Python str.split(): walk the characters, accumulating the
current word in reverse. -/
def pySplitChars : List Char → List Char → List String
  | cur, [] => if cur.isEmpty then [] else [String.mk cur.reverse]
  | cur, c :: cs =>
    if c.isWhitespace then
      (if cur.isEmpty then [] else [String.mk cur.reverse]) ++ pySplitChars [] cs
    else pySplitChars (c :: cur) cs

/-- Python str.split() with no separator: split on whitespace runs,
discarding empty tokens. -/
def pySplit (s : String) : List String := pySplitChars [] s.toList

/-- Python str.strip(): remove leading and trailing whitespace. -/
def pyStrip (s : String) : String :=
  String.mk (((s.toList.dropWhile Char.isWhitespace).reverse.dropWhile
    Char.isWhitespace).reverse)

/-! difflib.SequenceMatcher(None, a, b) as used by src/utils.py: the tokens
are strings, isjunk is None and autojunk has its default value True. -/

inductive Tag where
  | equal
  | replace
  | insert
  | delete
deriving DecidableEq

structure Opcode where
  tag : Tag
  i1 : Nat
  i2 : Nat
  j1 : Nat
  j2 : Nat
deriving DecidableEq

/-- The indices j with b[j] = x: difflib's b2j entry for x before autojunk. -/
def bIndices (b : List String) (x : String) : List Nat :=
  (List.range b.length).filter (fun j => b.getD j "" == x)

/-- difflib's b2j lookup.  autojunk removes "popular" elements when
len(b) >= 200 (popular: occurring more than len(b)/100 + 1 times); isjunk
is None, so the junk set is empty. -/
def b2j (b : List String) (x : String) : List Nat :=
  let idxs := bIndices b x
  if 200 ≤ b.length ∧ b.length / 100 + 1 < idxs.length then [] else idxs

/-- The (besti, bestj, bestsize) result triple of find_longest_match. -/
structure FLM where
  besti : Nat
  bestj : Nat
  bestsize : Nat
deriving DecidableEq

/-- Inner loop body of find_longest_match's dynamic program: process one
index j of b2j[a[i]] (already filtered to blo ≤ j < bhi).  j2old is the
j2len map of the previous outer iteration, the first state component is
newj2len (started empty each outer round).  Python reads j2len.get(j-1, 0),
which is 0 when j = 0 since the key -1 is never present. -/
def flmInner (j2old : Nat → Nat) (i : Nat) (st : (Nat → Nat) × FLM) (j : Nat) :
    (Nat → Nat) × FLM :=
  let k := (if j = 0 then 0 else j2old (j - 1)) + 1
  let nj := fun j' => if j' = j then k else st.1 j'
  let best : FLM := if st.2.bestsize < k then ⟨i + 1 - k, j + 1 - k, k⟩ else st.2
  (nj, best)

/-- Outer loop body of find_longest_match: one index i of a.  The `continue`
below blo and the `break` at bhi of the Python loop over the ascending
index list amount to keeping the indices with blo ≤ j < bhi. -/
def flmOuter (a b : List String) (blo bhi : Nat) (st : (Nat → Nat) × FLM)
    (i : Nat) : (Nat → Nat) × FLM :=
  let js := (b2j b (a.getD i "")).filter (fun j => decide (blo ≤ j) && decide (j < bhi))
  js.foldl (flmInner st.1 i) ((fun _ => 0), st.2)

/-- The dynamic-programming phase of find_longest_match over i in
range(alo, ahi). -/
def flmLoop (a b : List String) (alo ahi blo bhi : Nat) : FLM :=
  ((List.range' alo (ahi - alo)).foldl (flmOuter a b blo bhi)
    ((fun _ => 0), ⟨alo, blo, 0⟩)).2

/-- Backward extension loop of find_longest_match (the junk set is empty, so
only the two non-junk while loops can fire).  Each step decreases besti,
which stays above alo, so any fuel ≥ besti is exact. -/
def extendBack (a b : List String) (alo blo : Nat) : Nat → FLM → FLM
  | 0, st => st
  | fuel + 1, st =>
    if alo < st.besti ∧ blo < st.bestj ∧
        a.getD (st.besti - 1) "" = b.getD (st.bestj - 1) "" then
      extendBack a b alo blo fuel ⟨st.besti - 1, st.bestj - 1, st.bestsize + 1⟩
    else st

/-- Forward extension loop of find_longest_match.  Each step increases
bestsize while besti + bestsize < ahi, so any fuel ≥ ahi is exact. -/
def extendFwd (a b : List String) (ahi bhi : Nat) : Nat → FLM → FLM
  | 0, st => st
  | fuel + 1, st =>
    if st.besti + st.bestsize < ahi ∧ st.bestj + st.bestsize < bhi ∧
        a.getD (st.besti + st.bestsize) "" = b.getD (st.bestj + st.bestsize) "" then
      extendFwd a b ahi bhi fuel ⟨st.besti, st.bestj, st.bestsize + 1⟩
    else st

/-- difflib SequenceMatcher.find_longest_match(alo, ahi, blo, bhi). -/
def find_longest_match (a b : List String) (alo ahi blo bhi : Nat) : FLM :=
  let m := flmLoop a b alo ahi blo bhi
  extendFwd a b ahi bhi (ahi + 1) (extendBack a b alo blo m.besti m)

/-- The divide-and-conquer of get_matching_blocks.  The Python implementation
keeps an explicit stack and sorts the collected blocks; every block found
left of the pivot precedes it and every block found right of it follows it,
so the sorted result is exactly this in-order recursion.  The measure
(ahi - alo) + (bhi - blo) strictly decreases at each recursive call, so any
fuel above it (the callers pass a.length + b.length + 1) is exact. -/
def matchingBlocksF (a b : List String) :
    Nat → Nat → Nat → Nat → Nat → List (Nat × Nat × Nat)
  | 0, _, _, _, _ => []
  | fuel + 1, alo, ahi, blo, bhi =>
    let m := find_longest_match a b alo ahi blo bhi
    if m.bestsize = 0 then []
    else
      (if alo < m.besti ∧ blo < m.bestj then
        matchingBlocksF a b fuel alo m.besti blo m.bestj
      else []) ++
      (m.besti, m.bestj, m.bestsize) ::
      (if m.besti + m.bestsize < ahi ∧ m.bestj + m.bestsize < bhi then
        matchingBlocksF a b fuel (m.besti + m.bestsize) ahi
          (m.bestj + m.bestsize) bhi
      else [])

/-- The adjacent-block merging pass at the end of get_matching_blocks: fold
with a pending block (i1, j1, k1), concatenating adjacent blocks. -/
def nonAdjacentGo : Nat × Nat × Nat → List (Nat × Nat × Nat) → List (Nat × Nat × Nat)
  | (i1, j1, k1), [] => if k1 ≠ 0 then [(i1, j1, k1)] else []
  | (i1, j1, k1), (i2, j2, k2) :: rest =>
    if i1 + k1 = i2 ∧ j1 + k1 = j2 then nonAdjacentGo (i1, j1, k1 + k2) rest
    else (if k1 ≠ 0 then [(i1, j1, k1)] else []) ++ nonAdjacentGo (i2, j2, k2) rest

/-- difflib SequenceMatcher.get_matching_blocks(). -/
def get_matching_blocks (a b : List String) : List (Nat × Nat × Nat) :=
  nonAdjacentGo (0, 0, 0)
    (matchingBlocksF a b (a.length + b.length + 1) 0 a.length 0 b.length)
  ++ [(a.length, b.length, 0)]

/-- difflib SequenceMatcher.get_opcodes(): walk the matching blocks, filling
the gap before each block with a replace/delete/insert opcode and emitting
an equal opcode for the block itself. -/
def opcodesFromBlocks : Nat → Nat → List (Nat × Nat × Nat) → List Opcode
  | _, _, [] => []
  | i, j, (ai, bj, sz) :: rest =>
    (if i < ai ∧ j < bj then [⟨Tag.replace, i, ai, j, bj⟩]
     else if i < ai then [⟨Tag.delete, i, ai, j, bj⟩]
     else if j < bj then [⟨Tag.insert, i, ai, j, bj⟩]
     else []) ++
    (if sz ≠ 0 then [⟨Tag.equal, ai, ai + sz, bj, bj + sz⟩] else []) ++
    opcodesFromBlocks (ai + sz) (bj + sz) rest

def get_opcodes (a b : List String) : List Opcode :=
  opcodesFromBlocks 0 0 (get_matching_blocks a b)

/-- One entry of src/utils.py diff_pairs. -/
structure Edit where
  type : Tag
  before_tokens : List String
  after_tokens : List String
  i1 : Nat
  i2 : Nat
  j1 : Nat
  j2 : Nat
deriving DecidableEq

/-- src/utils.py diff_pairs: the non-equal opcodes with their token ranges. -/
def diff_pairs (original corrected : String) : List Edit :=
  let o := pySplit original
  let c := pySplit corrected
  ((get_opcodes o c).filter (fun op => op.tag ≠ Tag.equal)).map
    (fun op => ⟨op.tag, pySlice o op.i1 op.i2, pySlice c op.j1 op.j2,
      op.i1, op.i2, op.j1, op.j2⟩)

/-- The opcode-walking loop of src/utils.py apply_selected_edits, threading
mask_idx; accept_mask[mask_idx] if mask_idx < len(accept_mask) else False
is List.getD. -/
def mergeLoop (o c : List String) (accept_mask : List Bool) :
    List Opcode → Nat → List String
  | [], _ => []
  | op :: rest, maskIdx =>
    if op.tag = Tag.equal then
      pySlice o op.i1 op.i2 ++ mergeLoop o c accept_mask rest maskIdx
    else
      (if op.tag = Tag.replace ∨ op.tag = Tag.insert then
        (if accept_mask.getD maskIdx false then pySlice c op.j1 op.j2
         else pySlice o op.i1 op.i2)
      else
        (if accept_mask.getD maskIdx false then []
         else pySlice o op.i1 op.i2)) ++
      mergeLoop o c accept_mask rest (maskIdx + 1)

/-- src/utils.py apply_selected_edits. -/
def apply_selected_edits (original corrected : String)
    (accept_mask : List Bool) : String :=
  let o := pySplit original
  let c := pySplit corrected
  String.intercalate " " (mergeLoop o c accept_mask (get_opcodes o c) 0)

/-! Code-block masking from src/utils.py: CODE_BLOCK_PATTERN = "```.*?```"
with re.DOTALL, mask_code_blocks and unmask_code_blocks. -/

/-- The placeholder marker shared by all placeholder keys. -/
def markerL : List Char := "[[[CODE_BLOCK_".toList

/-- The triple-backtick fence of CODE_BLOCK_PATTERN. -/
def fenceL : List Char := "```".toList

/-- Decimal digit characters of n, most significant first: Python's
f-string rendering of a nonnegative integer. -/
def digitsChars (n : Nat) : List Char :=
  if n = 0 then ['0'] else ((Nat.digits 10 n).reverse.map Nat.digitChar)

/-- The placeholder key f"[[[CODE_BLOCK_{n}]]]". -/
def codeBlockKey (n : Nat) : List Char := markerL ++ digitsChars n ++ "]]]".toList

/-- First position p ≥ start with s[p:p+3] = the fence. -/
def findTriple (s : List Char) (start : Nat) : Option Nat :=
  (List.range' start (s.length - start)).find? (fun p => (s.drop p).take 3 == fenceL)

/-- Leftmost match of the code-block regex at or after pos: the pattern
matches at the first fence position p that is followed by another fence at
some q ≥ p + 3 (the lazy .*? picks the smallest such q).  A fence with no
closing fence matches nowhere, and no later position can match either,
since a later match's closing fence would also close the first fence. -/
def findOpenClose (s : List Char) (pos : Nat) : Option (Nat × Nat) :=
  match findTriple s pos with
  | none => none
  | some p => (findTriple s (p + 3)).map (fun q => (p, q))

/-- The scanning loop of re.sub on CODE_BLOCK_PATTERN: replace each match
[p, q+3) by the key for the current block count and resume after it.  Each
match consumes at least 6 characters, so fuel s.length + 1 is more than
enough; exhausted fuel would leave the rest unscanned. -/
def maskLoop (s : List Char) :
    Nat → Nat → Nat → List Char × List (List Char × List Char)
  | 0, pos, _ => (s.drop pos, [])
  | fuel + 1, pos, cnt =>
    match findOpenClose s pos with
    | none => (s.drop pos, [])
    | some (p, q) =>
      let key := codeBlockKey cnt
      let rest := maskLoop s fuel (q + 3) (cnt + 1)
      (pySlice s pos p ++ key ++ rest.1, (key, pySlice s p (q + 3)) :: rest.2)

/-- src/utils.py mask_code_blocks: returns the masked text and the
placeholder → block association in discovery order, which is the insertion
and hence iteration order of the Python dict. -/
def mask_code_blocks (text : String) : String × List (String × String) :=
  let s := text.toList
  let r := maskLoop s (s.length + 1) 0 0
  (String.mk r.1, r.2.map (fun kv => (String.mk kv.1, String.mk kv.2)))

/-- Python str.replace(pat, rep): replace non-overlapping occurrences left to
right (on the empty pattern Python inserts rep at every boundary).  Each
step consumes at least one character, so fuel s.length + 1 is exact. -/
def replaceAllGo (pat rep : List Char) : Nat → List Char → List Char
  | 0, s => s
  | _ + 1, [] => if pat.isEmpty then rep else []
  | fuel + 1, c :: cs =>
    if pat.isEmpty then rep ++ c :: replaceAllGo pat rep fuel cs
    else if pat.isPrefixOf (c :: cs) then
      rep ++ replaceAllGo pat rep fuel ((c :: cs).drop pat.length)
    else c :: replaceAllGo pat rep fuel cs

def replaceAll (pat rep s : List Char) : List Char :=
  replaceAllGo pat rep (s.length + 1) s

/-- src/utils.py unmask_code_blocks: for k, v in blocks.items():
text = text.replace(k, v). -/
def unmask_code_blocks (text : String) (blocks : List (String × String)) : String :=
  String.mk (blocks.foldl (fun t kv => replaceAll kv.1.toList kv.2.toList t) text.toList)

/-! src/model.py get_gemini_analysis, with the network call (_try_models) and
the JSON extraction (_json_from_text) abstracted: raw is the provider's
response text and data the JSON value extracted from it.  JVal.null also
covers Python None, the result of a failed extraction. -/

inductive JVal where
  | null : JVal
  | bool : Bool → JVal
  | num : ℚ → JVal
  | str : String → JVal
  | arr : List JVal → JVal
  | obj : List (String × JVal) → JVal

/-- Python dict.get(k, d) on a parsed JSON object; keys are unique after
json.loads, so first-match lookup is dict lookup. -/
def jGet (fields : List (String × JVal)) (k : String) (d : JVal) : JVal :=
  match fields.find? (fun kv => kv.1 == k) with
  | some kv => kv.2
  | none => d

/-- Python float(x) on a JSON value: numbers pass through, booleans become
0 or 1, anything else raises (None, lists and dicts always; strings raise
unless they spell a number, and the code paths verified here never feed
string confidences, so strings are modelled as raising).  none models the
exception. -/
def pyFloat : JVal → Option ℚ
  | JVal.num q => some q
  | JVal.bool b => some (if b then 1 else 0)
  | _ => none

/-- Python .strip() on a JSON value: raises (none) unless it is a string. -/
def pyStripJ : JVal → Option String
  | JVal.str s => some (pyStrip s)
  | _ => none

structure Suggestion where
  corrected : String
  confidence : ℚ
  explanations : JVal
  language : JVal
  translation_en : JVal

/-- The sanitize loop of get_gemini_analysis (model.py lines 179-189): skip
non-dict items and build each cleaned suggestion; an exception raised by
float() or .strip() on an unsuitable value aborts the whole call (none). -/
def cleanItems (language : String) : List JVal → Option (List Suggestion)
  | [] => some []
  | JVal.obj fields :: rest =>
    match pyStripJ (jGet fields "corrected" (JVal.str "")),
          pyFloat (jGet fields "confidence" (JVal.num (7/10))) with
    | some corr, some conf =>
      (cleanItems language rest).map (fun tail =>
        { corrected := corr, confidence := conf,
          explanations := jGet fields "explanations" (JVal.arr []),
          language := jGet fields "language"
            (JVal.str (if language = "" then "Auto" else language)),
          translation_en := jGet fields "translation_en" JVal.null } :: tail)
    | _, _ => none
  | _ :: rest => cleanItems language rest

/-- The fallback suggestion dict built when the extracted JSON value is not
a list (model.py lines 175-177); language or "Auto" is Python truthiness
on the language string. -/
def fallbackItem (raw language : String) : JVal :=
  JVal.obj [("corrected", JVal.str (pyStrip raw)),
    ("confidence", JVal.num (7/10)),
    ("explanations", JVal.arr []),
    ("language", JVal.str (if language = "" then "Auto" else language))]

/-- src/model.py get_gemini_analysis as a function of the provider's raw
response text and the JSON value extracted from it by _json_from_text. -/
def get_gemini_analysis (raw : String) (language : String) (data : JVal) :
    Option (List Suggestion) :=
  match data with
  | JVal.arr items => cleanItems language items
  | _ => cleanItems language [fallbackItem raw language]

/-- The display-time clamp st.progress(min(max(confidence, 0.0), 1.0)) of
src/app.py line 167. -/
def progress_value (confidence : ℚ) : ℚ := min (max confidence 0) 1

/-! Specification-side notions used to state the claims. -/

/-- Coverage property of an opcode list: starting from (i, j) the opcodes'
original and candidate index ranges are consecutive and end exactly at
(la, lb), so every index of both sequences is covered exactly once, in
left-to-right order. -/
def Covers (la lb : Nat) : Nat → Nat → List Opcode → Prop
  | i, j, [] => i = la ∧ j = lb
  | i, j, op :: rest =>
    op.i1 = i ∧ op.j1 = j ∧ i ≤ op.i2 ∧ j ≤ op.j2 ∧ Covers la lb op.i2 op.j2 rest

/-- The original-side token range of an opcode: its original range for
equal/replace/delete, nothing for insert. -/
def beforeRange (o : List String) (op : Opcode) : List String :=
  if op.tag = Tag.insert then [] else pySlice o op.i1 op.i2

/-- The candidate-side token range of an opcode: its candidate range for
equal/replace/insert, nothing for delete. -/
def afterRange (c : List String) (op : Opcode) : List String :=
  if op.tag = Tag.delete then [] else pySlice c op.j1 op.j2

/-- A triple-backtick fence sits at position p of s. -/
def tripleAt (s : List Char) (p : Nat) : Prop := (s.drop p).take 3 = fenceL

instance (s : List Char) (p : Nat) : Decidable (tripleAt s p) :=
  inferInstanceAs (Decidable ((s.drop p).take 3 = fenceL))

/-! Invariants of the diff engine.  GenMatch says a and b agree on k tokens
starting at (i, j); BestInv is the invariant of find_longest_match's
candidate triple; JInv is the invariant of the j2len map when the next
outer index is i (its entries are lengths of common suffixes ending at
row i - 1). -/

def GenMatch (a b : List String) (i j k : Nat) : Prop :=
  ∀ t, t < k → a.getD (i + t) "" = b.getD (j + t) ""

def BestInv (a b : List String) (alo ahi blo bhi : Nat) (m : FLM) : Prop :=
  alo ≤ m.besti ∧ blo ≤ m.bestj ∧
  (m.bestsize = 0 → m.besti = alo ∧ m.bestj = blo) ∧
  (m.bestsize ≠ 0 → m.besti + m.bestsize ≤ ahi ∧ m.bestj + m.bestsize ≤ bhi ∧
    GenMatch a b m.besti m.bestj m.bestsize)

def JInv (a b : List String) (alo blo bhi i : Nat) (J : Nat → Nat) : Prop :=
  ∀ j, J j ≠ 0 → blo ≤ j ∧ j < bhi ∧ alo + J j ≤ i ∧ blo + J j ≤ j + 1 ∧
    ∀ t, t < J j → a.getD (i - 1 - t) "" = b.getD (j - t) ""

theorem flmInner_fold_inv (a b : List String) (alo ahi blo bhi i : Nat)
    (hal : alo ≤ i) (hia : i < ahi) (Jold : Nat → Nat)
    (hold : JInv a b alo blo bhi i Jold) :
    ∀ (js : List Nat) (nj : Nat → Nat) (best : FLM),
      (∀ j ∈ js, blo ≤ j ∧ j < bhi ∧ b.getD j "" = a.getD i "") →
      JInv a b alo blo bhi (i + 1) nj →
      BestInv a b alo ahi blo bhi best →
      JInv a b alo blo bhi (i + 1) (js.foldl (flmInner Jold i) (nj, best)).1 ∧
      BestInv a b alo ahi blo bhi (js.foldl (flmInner Jold i) (nj, best)).2 := by
  intro js
  induction js with
  | nil => intro nj best _ hnj hbest; exact ⟨hnj, hbest⟩
  | cons j js ih =>
    intro nj best hmem hnj hbest
    have hj := hmem j (List.mem_cons_self j js)
    rw [List.foldl_cons]
    have hk1 : alo + ((if j = 0 then 0 else Jold (j - 1)) + 1) ≤ i + 1 := by
      by_cases hj0 : j = 0
      · simp [hj0]; omega
      · simp only [if_neg hj0]
        by_cases hJo : Jold (j - 1) = 0
        · rw [hJo]; omega
        · have := (hold (j - 1) hJo).2.2.1; omega
    have hk2 : blo + ((if j = 0 then 0 else Jold (j - 1)) + 1) ≤ j + 1 := by
      by_cases hj0 : j = 0
      · simp [hj0]; omega
      · simp only [if_neg hj0]
        by_cases hJo : Jold (j - 1) = 0
        · rw [hJo]; have := hj.1; omega
        · have := (hold (j - 1) hJo).2.2.2.1; omega
    have hk3 : ∀ t, t < (if j = 0 then 0 else Jold (j - 1)) + 1 →
        a.getD (i - t) "" = b.getD (j - t) "" := by
      intro t ht
      match t with
      | 0 => simpa using hj.2.2.symm
      | u + 1 =>
        by_cases hj0 : j = 0
        · rw [if_pos hj0] at ht; omega
        · rw [if_neg hj0] at ht
          by_cases hJo : Jold (j - 1) = 0
          · rw [hJo] at ht; omega
          · have hu : u < Jold (j - 1) := by omega
            have := (hold (j - 1) hJo).2.2.2.2 u hu
            have e1 : i - 1 - u = i - (u + 1) := by omega
            have e2 : j - 1 - u = j - (u + 1) := by omega
            rw [e1, e2] at this
            exact this
    apply ih
    · intro j' hmem'; exact hmem j' (List.mem_cons_of_mem _ hmem')
    · -- new j2len map invariant
      intro j' hne
      simp only [flmInner] at hne ⊢
      by_cases hjj : j' = j
      · rw [if_pos hjj] at hne ⊢
        subst hjj
        refine ⟨hj.1, hj.2.1, by omega, by omega, ?_⟩
        intro t ht
        have := hk3 t ht
        have e : i + 1 - 1 - t = i - t := by omega
        rw [e]
        exact this
      · rw [if_neg hjj] at hne ⊢
        exact hnj j' hne
    · -- new best invariant
      simp only [flmInner]
      by_cases hlt : best.bestsize < (if j = 0 then 0 else Jold (j - 1)) + 1
      · rw [if_pos hlt]
        set k := (if j = 0 then 0 else Jold (j - 1)) + 1 with hkdef
        refine ⟨?_, ?_, ?_, ?_⟩
        · show alo ≤ i + 1 - k
          omega
        · show blo ≤ j + 1 - k
          omega
        · intro h
          have h' : k = 0 := h
          exact (by omega : False).elim
        · intro _
          refine ⟨?_, ?_, ?_⟩
          · show i + 1 - k + k ≤ ahi
            omega
          · show j + 1 - k + k ≤ bhi
            omega
          · intro t ht
            have ht' : t < k := ht
            have := hk3 (k - 1 - t) (by omega)
            have e1 : i - (k - 1 - t) = i + 1 - k + t := by omega
            have e2 : j - (k - 1 - t) = j + 1 - k + t := by omega
            rw [e1, e2] at this
            exact this
      · rw [if_neg hlt]; exact hbest

theorem flmOuter_fold_inv (a b : List String) (alo ahi blo bhi : Nat) :
    ∀ (n s : Nat) (J : Nat → Nat) (best : FLM), alo ≤ s → s + n ≤ ahi →
      JInv a b alo blo bhi s J → BestInv a b alo ahi blo bhi best →
      BestInv a b alo ahi blo bhi
        (((List.range' s n).foldl (flmOuter a b blo bhi) (J, best)).2) := by
  intro n
  induction n with
  | zero => intro s J best _ _ _ hbest; simpa using hbest
  | succ n ih =>
    intro s J best hs hsn hJ hbest
    rw [List.range'_succ, List.foldl_cons]
    have hmem : ∀ j ∈ (b2j b (a.getD s "")).filter
        (fun j => decide (blo ≤ j) && decide (j < bhi)),
        blo ≤ j ∧ j < bhi ∧ b.getD j "" = a.getD s "" := by
      intro j hjmem
      have h1 := List.of_mem_filter hjmem
      have h2 := List.mem_of_mem_filter hjmem
      simp only [Bool.and_eq_true, decide_eq_true_eq] at h1
      refine ⟨h1.1, h1.2, ?_⟩
      unfold b2j at h2
      simp only [] at h2
      by_cases hpop : 200 ≤ b.length ∧ b.length / 100 + 1 < (bIndices b (a.getD s "")).length
      · rw [if_pos hpop] at h2; exact absurd h2 (List.not_mem_nil j)
      · rw [if_neg hpop] at h2
        unfold bIndices at h2
        have := List.of_mem_filter h2
        simpa using this
    have hinner := flmInner_fold_inv a b alo ahi blo bhi s hs (by omega) J hJ
      ((b2j b (a.getD s "")).filter (fun j => decide (blo ≤ j) && decide (j < bhi)))
      (fun _ => 0) best hmem (by intro j hne; exact absurd rfl hne) hbest
    have step : flmOuter a b blo bhi (J, best) s =
        ((b2j b (a.getD s "")).filter (fun j => decide (blo ≤ j) && decide (j < bhi))).foldl
          (flmInner J s) ((fun _ => 0), best) := rfl
    rw [step]
    exact ih (s + 1) _ _ (by omega) (by omega) hinner.1 hinner.2

theorem flmLoop_inv (a b : List String) (alo ahi blo bhi : Nat) :
    BestInv a b alo ahi blo bhi (flmLoop a b alo ahi blo bhi) := by
  unfold flmLoop
  have hbest0 : BestInv a b alo ahi blo bhi ⟨alo, blo, 0⟩ :=
    ⟨Nat.le_refl _, Nat.le_refl _, fun _ => ⟨rfl, rfl⟩, fun h => absurd rfl h⟩
  by_cases h : alo ≤ ahi
  · exact flmOuter_fold_inv a b alo ahi blo bhi (ahi - alo) alo _ _ (Nat.le_refl _)
      (by omega) (fun j hne => absurd rfl hne) hbest0
  · have : ahi - alo = 0 := by omega
    rw [this]
    simpa using hbest0

theorem extendBack_inv (a b : List String) (alo ahi blo bhi : Nat) :
    ∀ (fuel : Nat) (m : FLM), BestInv a b alo ahi blo bhi m →
      BestInv a b alo ahi blo bhi (extendBack a b alo blo fuel m) := by
  intro fuel
  induction fuel with
  | zero => intro m hm; exact hm
  | succ fuel ih =>
    intro m hm
    unfold extendBack
    by_cases hg : alo < m.besti ∧ blo < m.bestj ∧
        a.getD (m.besti - 1) "" = b.getD (m.bestj - 1) ""
    · rw [if_pos hg]
      by_cases hsz : m.bestsize = 0
      · have := (hm.2.2.1 hsz).1
        omega
      · have hb := hm.2.2.2 hsz
        apply ih
        refine ⟨?_, ?_, ?_, ?_⟩
        · show alo ≤ m.besti - 1
          omega
        · show blo ≤ m.bestj - 1
          omega
        · intro h
          have h' : m.bestsize + 1 = 0 := h
          exact (by omega : False).elim
        · intro _
          refine ⟨?_, ?_, ?_⟩
          · show m.besti - 1 + (m.bestsize + 1) ≤ ahi
            have := hb.1
            omega
          · show m.bestj - 1 + (m.bestsize + 1) ≤ bhi
            have := hb.2.1
            omega
          · intro t ht
            have ht' : t < m.bestsize + 1 := ht
            match t with
            | 0 => simpa using hg.2.2
            | u + 1 =>
              have e1 : m.besti - 1 + (u + 1) = m.besti + u := by omega
              have e2 : m.bestj - 1 + (u + 1) = m.bestj + u := by omega
              show a.getD (m.besti - 1 + (u + 1)) "" = b.getD (m.bestj - 1 + (u + 1)) ""
              rw [e1, e2]
              exact hb.2.2 u (by omega)
    · rw [if_neg hg]; exact hm

theorem extendFwd_inv (a b : List String) (alo ahi blo bhi : Nat) :
    ∀ (fuel : Nat) (m : FLM), BestInv a b alo ahi blo bhi m →
      BestInv a b alo ahi blo bhi (extendFwd a b ahi bhi fuel m) := by
  intro fuel
  induction fuel with
  | zero => intro m hm; exact hm
  | succ fuel ih =>
    intro m hm
    unfold extendFwd
    by_cases hg : m.besti + m.bestsize < ahi ∧ m.bestj + m.bestsize < bhi ∧
        a.getD (m.besti + m.bestsize) "" = b.getD (m.bestj + m.bestsize) ""
    · rw [if_pos hg]
      apply ih
      refine ⟨hm.1, hm.2.1, ?_, ?_⟩
      · intro h
        have h' : m.bestsize + 1 = 0 := h
        exact (by omega : False).elim
      · intro _
        refine ⟨?_, ?_, ?_⟩
        · show m.besti + (m.bestsize + 1) ≤ ahi
          omega
        · show m.bestj + (m.bestsize + 1) ≤ bhi
          omega
        · intro t ht
          have ht' : t < m.bestsize + 1 := ht
          show a.getD (m.besti + t) "" = b.getD (m.bestj + t) ""
          by_cases htt : t < m.bestsize
          · by_cases hsz : m.bestsize = 0
            · omega
            · exact (hm.2.2.2 hsz).2.2 t htt
          · have : t = m.bestsize := by omega
            rw [this]
            exact hg.2.2
    · rw [if_neg hg]; exact hm

/-- The combined invariant of find_longest_match: the reported block lies
inside the window, starts at or after (alo, blo), and (when nonempty) is a
genuine common block of a and b. -/
theorem find_longest_match_inv (a b : List String) (alo ahi blo bhi : Nat) :
    BestInv a b alo ahi blo bhi (find_longest_match a b alo ahi blo bhi) := by
  unfold find_longest_match
  exact extendFwd_inv a b alo ahi blo bhi _ _
    (extendBack_inv a b alo ahi blo bhi _ _ (flmLoop_inv a b alo ahi blo bhi))

/-- Chain invariant for lists of matching blocks: starting from the frontier
(i, j), blocks are in order, stay inside [0, ahi) × [0, bhi), and each is a
genuine common block. -/
def RawChain (a b : List String) (ahi bhi : Nat) : Nat → Nat → List (Nat × Nat × Nat) → Prop
  | _, _, [] => True
  | i, j, (ai, bj, sz) :: rest =>
    i ≤ ai ∧ j ≤ bj ∧ ai + sz ≤ ahi ∧ bj + sz ≤ bhi ∧ GenMatch a b ai bj sz ∧
    RawChain a b ahi bhi (ai + sz) (bj + sz) rest

theorem RawChain.mono_start {a b : List String} {ahi bhi i j i' j' : Nat}
    {L : List (Nat × Nat × Nat)} (hi : i' ≤ i) (hj : j' ≤ j)
    (h : RawChain a b ahi bhi i j L) : RawChain a b ahi bhi i' j' L := by
  match L with
  | [] => exact trivial
  | (ai, bj, sz) :: rest =>
    obtain ⟨h1, h2, h3, h4, h5, h6⟩ := h
    exact ⟨Nat.le_trans hi h1, Nat.le_trans hj h2, h3, h4, h5, h6⟩

theorem RawChain.mono_hi {a b : List String} {ahi bhi ahi' bhi' i j : Nat}
    {L : List (Nat × Nat × Nat)} (hi : ahi ≤ ahi') (hj : bhi ≤ bhi') :
    RawChain a b ahi bhi i j L → RawChain a b ahi' bhi' i j L := by
  induction L generalizing i j with
  | nil => intro _; exact trivial
  | cons blk rest ih =>
    obtain ⟨ai, bj, sz⟩ := blk
    intro h
    obtain ⟨h1, h2, h3, h4, h5, h6⟩ := h
    exact ⟨h1, h2, Nat.le_trans h3 hi, Nat.le_trans h4 hj, h5, ih h6⟩

theorem RawChain.append {a b : List String} {ahi bhi iM jM i j : Nat}
    {L R : List (Nat × Nat × Nat)}
    (hL : RawChain a b iM jM i j L) (hR : RawChain a b ahi bhi iM jM R)
    (hi : i ≤ iM) (hj : j ≤ jM) (hM : iM ≤ ahi) (hMj : jM ≤ bhi) :
    RawChain a b ahi bhi i j (L ++ R) := by
  induction L generalizing i j with
  | nil => exact hR.mono_start hi hj
  | cons blk rest ih =>
    obtain ⟨ai, bj, sz⟩ := blk
    obtain ⟨h1, h2, h3, h4, h5, h6⟩ := hL
    exact ⟨h1, h2, Nat.le_trans h3 hM, Nat.le_trans h4 hMj, h5, ih h6 h3 h4⟩

theorem matchingBlocksF_chain (a b : List String) :
    ∀ (fuel alo ahi blo bhi : Nat),
      RawChain a b ahi bhi alo blo (matchingBlocksF a b fuel alo ahi blo bhi) := by
  intro fuel
  induction fuel with
  | zero => intro alo ahi blo bhi; exact trivial
  | succ fuel ih =>
    intro alo ahi blo bhi
    have hinv := find_longest_match_inv a b alo ahi blo bhi
    unfold matchingBlocksF
    set m := find_longest_match a b alo ahi blo bhi with hm
    by_cases hsz : m.bestsize = 0
    · rw [if_pos hsz]; exact trivial
    · rw [if_neg hsz]
      have hb := hinv.2.2.2 hsz
      have hmid : RawChain a b ahi bhi m.besti m.bestj
          ((m.besti, m.bestj, m.bestsize) ::
            (if m.besti + m.bestsize < ahi ∧ m.bestj + m.bestsize < bhi then
              matchingBlocksF a b fuel (m.besti + m.bestsize) ahi
                (m.bestj + m.bestsize) bhi
            else [])) := by
        refine ⟨Nat.le_refl _, Nat.le_refl _, hb.1, hb.2.1, hb.2.2, ?_⟩
        by_cases hg : m.besti + m.bestsize < ahi ∧ m.bestj + m.bestsize < bhi
        · rw [if_pos hg]; exact ih (m.besti + m.bestsize) ahi (m.bestj + m.bestsize) bhi
        · rw [if_neg hg]; exact trivial
      by_cases hg : alo < m.besti ∧ blo < m.bestj
      · rw [if_pos hg]
        exact RawChain.append
          ((ih alo m.besti blo m.bestj).mono_start (Nat.le_refl _) (Nat.le_refl _))
          hmid (Nat.le_of_lt hg.1) (Nat.le_of_lt hg.2)
          (Nat.le_trans (Nat.le_add_right _ _) hb.1)
          (Nat.le_trans (Nat.le_add_right _ _) hb.2.1)
      · rw [if_neg hg]
        exact hmid.mono_start hinv.1 hinv.2.1

theorem nonAdjacentGo_chain {a b : List String} {ahi bhi : Nat} :
    ∀ (L : List (Nat × Nat × Nat)) (i1 j1 k1 : Nat),
      GenMatch a b i1 j1 k1 → i1 + k1 ≤ ahi → j1 + k1 ≤ bhi →
      RawChain a b ahi bhi (i1 + k1) (j1 + k1) L →
      RawChain a b ahi bhi i1 j1 (nonAdjacentGo (i1, j1, k1) L) := by
  intro L
  induction L with
  | nil =>
    intro i1 j1 k1 hg h1 h2 _
    unfold nonAdjacentGo
    by_cases hk : k1 ≠ 0
    · rw [if_pos hk]
      exact ⟨Nat.le_refl _, Nat.le_refl _, h1, h2, hg, trivial⟩
    · rw [if_neg hk]; exact trivial
  | cons blk rest ih =>
    obtain ⟨i2, j2, k2⟩ := blk
    intro i1 j1 k1 hg h1 h2 hch
    obtain ⟨c1, c2, c3, c4, c5, c6⟩ := hch
    unfold nonAdjacentGo
    by_cases hadj : i1 + k1 = i2 ∧ j1 + k1 = j2
    · rw [if_pos hadj]
      apply ih i1 j1 (k1 + k2)
      · intro t ht
        by_cases htk : t < k1
        · exact hg t htk
        · have e1 : i1 + t = i2 + (t - k1) := by omega
          have e2 : j1 + t = j2 + (t - k1) := by omega
          rw [e1, e2]
          exact c5 (t - k1) (by omega)
      · omega
      · omega
      · have e1 : i1 + (k1 + k2) = i2 + k2 := by omega
        have e2 : j1 + (j1 + (k1 + k2) - j1) = j2 + k2 := by omega
        rw [e1]
        have e3 : j1 + (k1 + k2) = j2 + k2 := by omega
        rw [e3]
        exact c6
    · rw [if_neg hadj]
      have hrest : RawChain a b ahi bhi i2 j2 (nonAdjacentGo (i2, j2, k2) rest) :=
        ih i2 j2 k2 c5 c3 c4 c6
      by_cases hk : k1 ≠ 0
      · rw [if_pos hk]
        exact ⟨Nat.le_refl _, Nat.le_refl _, h1, h2, hg,
          hrest.mono_start c1 c2⟩
      · rw [if_neg hk]
        simp only [List.nil_append]
        exact hrest.mono_start (by omega) (by omega)

/-- get_matching_blocks yields a chain of genuine blocks inside the two
sequences, followed by the (la, lb, 0) sentinel. -/
theorem get_matching_blocks_chain (a b : List String) :
    RawChain a b a.length b.length 0 0
      (nonAdjacentGo (0, 0, 0)
        (matchingBlocksF a b (a.length + b.length + 1) 0 a.length 0 b.length)) := by
  apply nonAdjacentGo_chain
  · intro t ht; omega
  · omega
  · omega
  · simpa using matchingBlocksF_chain a b (a.length + b.length + 1) 0 a.length 0 b.length

theorem getD_eq_getElem' {α : Type} (l : List α) (d : α) {n : Nat} (h : n < l.length) :
    l.getD n d = l[n] := by
  simp [List.getD_eq_getElem?_getD, List.getElem?_eq_getElem h]

theorem genMatch_slice_eq {o c : List String} {ai bj sz : Nat}
    (hg : GenMatch o c ai bj sz) (ho : ai + sz ≤ o.length) (hc : bj + sz ≤ c.length) :
    pySlice o ai (ai + sz) = pySlice c bj (bj + sz) := by
  unfold pySlice
  apply List.ext_getElem
  · simp
    omega
  · intro t h1 h2
    have hts : t < sz := by
      simp at h1
      omega
    simp only [List.getElem_take, List.getElem_drop]
    have hgt := hg t hts
    rw [getD_eq_getElem' o "" (by omega), getD_eq_getElem' c "" (by omega)] at hgt
    exact hgt

/-- Chain invariant for opcode lists: ranges are consecutive from (i, j) to
the two lengths, equal opcodes relate identical slices, insert opcodes have
an empty original range and delete opcodes an empty candidate range. -/
def OpsChain (o c : List String) : Nat → Nat → List Opcode → Prop
  | i, j, [] => i = o.length ∧ j = c.length
  | i, j, op :: rest =>
    op.i1 = i ∧ op.j1 = j ∧ i ≤ op.i2 ∧ j ≤ op.j2 ∧
    op.i2 ≤ o.length ∧ op.j2 ≤ c.length ∧
    (op.tag = Tag.equal → pySlice o op.i1 op.i2 = pySlice c op.j1 op.j2) ∧
    (op.tag = Tag.insert → op.i1 = op.i2) ∧
    (op.tag = Tag.delete → op.j1 = op.j2) ∧
    OpsChain o c op.i2 op.j2 rest

theorem opcodesFromBlocks_chain {o c : List String} :
    ∀ (L : List (Nat × Nat × Nat)) (i j : Nat),
      RawChain o c o.length c.length i j L → i ≤ o.length → j ≤ c.length →
      OpsChain o c i j (opcodesFromBlocks i j (L ++ [(o.length, c.length, 0)])) := by
  intro L
  induction L with
  | nil =>
    intro i j _ hi hj
    simp only [List.nil_append]
    unfold opcodesFromBlocks
    rw [if_neg (by decide : ¬ (0 : Nat) ≠ 0)]
    have hrec : opcodesFromBlocks (o.length + 0) (c.length + 0)
        ([] : List (Nat × Nat × Nat)) = [] := rfl
    rw [hrec]
    simp only [List.append_nil, List.nil_append]
    by_cases h1 : i < o.length ∧ j < c.length
    · rw [if_pos h1]
      refine ⟨rfl, rfl, ?_, ?_, ?_, ?_, by nofun, by nofun, by nofun, rfl, rfl⟩
      · show i ≤ o.length
        omega
      · show j ≤ c.length
        omega
      · show o.length ≤ o.length
        omega
      · show c.length ≤ c.length
        omega
    · rw [if_neg h1]
      by_cases h2 : i < o.length
      · rw [if_pos h2]
        have hjc : j = c.length := by
          rcases Nat.lt_or_ge j c.length with h | h
          · exact absurd ⟨h2, h⟩ h1
          · omega
        refine ⟨rfl, rfl, ?_, ?_, ?_, ?_, by nofun, by nofun, (fun _ => hjc),
          rfl, rfl⟩
        · show i ≤ o.length
          omega
        · show j ≤ c.length
          omega
        · show o.length ≤ o.length
          omega
        · show c.length ≤ c.length
          omega
      · rw [if_neg h2]
        have hio : i = o.length := by omega
        by_cases h3 : j < c.length
        · rw [if_pos h3]
          refine ⟨rfl, rfl, ?_, ?_, ?_, ?_, by nofun, (fun _ => hio), by nofun,
            rfl, rfl⟩
          · show i ≤ o.length
            omega
          · show j ≤ c.length
            omega
          · show o.length ≤ o.length
            omega
          · show c.length ≤ c.length
            omega
        · rw [if_neg h3]
          exact ⟨by omega, by omega⟩
  | cons blk rest ih =>
    obtain ⟨ai, bj, sz⟩ := blk
    intro i j hch hi hj
    obtain ⟨c1, c2, c3, c4, c5, c6⟩ := hch
    have hIH := ih (ai + sz) (bj + sz) c6 (by omega) (by omega)
    simp only [List.cons_append]
    unfold opcodesFromBlocks
    have heq : OpsChain o c ai bj
        ((if sz ≠ 0 then [⟨Tag.equal, ai, ai + sz, bj, bj + sz⟩] else []) ++
          opcodesFromBlocks (ai + sz) (bj + sz) (rest ++ [(o.length, c.length, 0)])) := by
      by_cases hsz : sz ≠ 0
      · rw [if_pos hsz]
        refine ⟨rfl, rfl, ?_, ?_, c3, c4, (fun _ => genMatch_slice_eq c5 c3 c4),
          by nofun, by nofun, hIH⟩
        · show ai ≤ ai + sz
          omega
        · show bj ≤ bj + sz
          omega
      · rw [if_neg hsz]
        have hz : sz = 0 := by omega
        subst hz
        simpa using hIH
    by_cases h1 : i < ai ∧ j < bj
    · rw [if_pos h1]
      refine ⟨rfl, rfl, ?_, ?_, ?_, ?_, by nofun, by nofun, by nofun, heq⟩
      · show i ≤ ai
        omega
      · show j ≤ bj
        omega
      · show ai ≤ o.length
        omega
      · show bj ≤ c.length
        omega
    · rw [if_neg h1]
      by_cases h2 : i < ai
      · rw [if_pos h2]
        have hjb : j = bj := by
          rcases Nat.lt_or_ge j bj with h | h
          · exact absurd ⟨h2, h⟩ h1
          · omega
        refine ⟨rfl, rfl, ?_, ?_, ?_, ?_, by nofun, by nofun, (fun _ => hjb), heq⟩
        · show i ≤ ai
          omega
        · show j ≤ bj
          omega
        · show ai ≤ o.length
          omega
        · show bj ≤ c.length
          omega
      · rw [if_neg h2]
        have hia : i = ai := by omega
        by_cases h3 : j < bj
        · rw [if_pos h3]
          refine ⟨rfl, rfl, ?_, ?_, ?_, ?_, by nofun, (fun _ => hia), by nofun, heq⟩
          · show i ≤ ai
            omega
          · show j ≤ bj
            omega
          · show ai ≤ o.length
            omega
          · show bj ≤ c.length
            omega
        · rw [if_neg h3]
          have hjb : j = bj := by omega
          rw [hia, hjb]
          simpa using heq

/-- The opcodes of the diff engine form a well-formed chain from (0, 0) to
the lengths of the two token sequences. -/
theorem opsChain_get_opcodes (o c : List String) :
    OpsChain o c 0 0 (get_opcodes o c) := by
  unfold get_opcodes get_matching_blocks
  exact opcodesFromBlocks_chain _ 0 0 (get_matching_blocks_chain o c)
    (by omega) (by omega)

theorem pySlice_append_drop {α : Type} (l : List α) {i m : Nat} (h : i ≤ m) :
    pySlice l i m ++ l.drop m = l.drop i := by
  unfold pySlice
  have h2 : l.drop m = (l.drop i).drop (m - i) := by
    rw [List.drop_drop]
    congr 1
    omega
  rw [h2, List.take_append_drop]

theorem opsChain_covers {o c : List String} :
    ∀ (ops : List Opcode) (i j : Nat), OpsChain o c i j ops →
      Covers o.length c.length i j ops := by
  intro ops
  induction ops with
  | nil => intro i j h; exact h
  | cons op rest ih =>
    intro i j h
    obtain ⟨h1, h2, h3, h4, _, _, _, _, _, h10⟩ := h
    exact ⟨h1, h2, h3, h4, ih op.i2 op.j2 h10⟩

theorem opsChain_before {o c : List String} :
    ∀ (ops : List Opcode) (i j : Nat), OpsChain o c i j ops →
      ops.flatMap (beforeRange o) = o.drop i := by
  intro ops
  induction ops with
  | nil =>
    intro i j h
    rw [List.flatMap_nil, h.1]
    exact (List.drop_eq_nil_of_le (Nat.le_refl _)).symm
  | cons op rest ih =>
    intro i j h
    obtain ⟨h1, h2, h3, h4, h5, h6, h7, h8, h9, h10⟩ := h
    rw [List.flatMap_cons, ih op.i2 op.j2 h10]
    have hbr : beforeRange o op = pySlice o i op.i2 := by
      unfold beforeRange
      by_cases ht : op.tag = Tag.insert
      · rw [if_pos ht]
        have := h8 ht
        rw [h1] at this
        unfold pySlice
        rw [← this]
        simp
      · rw [if_neg ht, h1]
    rw [hbr, pySlice_append_drop o h3]

theorem opsChain_after {o c : List String} :
    ∀ (ops : List Opcode) (i j : Nat), OpsChain o c i j ops →
      ops.flatMap (afterRange c) = c.drop j := by
  intro ops
  induction ops with
  | nil =>
    intro i j h
    rw [List.flatMap_nil]
    exact (List.drop_eq_nil_of_le (Nat.le_of_eq h.2.symm)).symm
  | cons op rest ih =>
    intro i j h
    obtain ⟨h1, h2, h3, h4, h5, h6, h7, h8, h9, h10⟩ := h
    rw [List.flatMap_cons, ih op.i2 op.j2 h10]
    have har : afterRange c op = pySlice c j op.j2 := by
      unfold afterRange
      by_cases ht : op.tag = Tag.delete
      · rw [if_pos ht]
        have := h9 ht
        rw [h2] at this
        unfold pySlice
        rw [← this]
        simp
      · rw [if_neg ht, h2]
    rw [har, pySlice_append_drop c h4]

/-- The number of non-equal opcodes: the number of accept-mask entries the
merge loop consumes and the length of diff_pairs. -/
def countNE (ops : List Opcode) : Nat :=
  (ops.filter (fun op => op.tag ≠ Tag.equal)).length

theorem countNE_cons_eq {op : Opcode} {rest : List Opcode} (h : op.tag = Tag.equal) :
    countNE (op :: rest) = countNE rest := by
  unfold countNE
  rw [List.filter_cons]
  simp [h]

theorem countNE_cons_ne {op : Opcode} {rest : List Opcode} (h : op.tag ≠ Tag.equal) :
    countNE (op :: rest) = countNE rest + 1 := by
  unfold countNE
  rw [List.filter_cons]
  simp [h]

theorem diff_pairs_length (A B : String) :
    (diff_pairs A B).length = countNE (get_opcodes (pySplit A) (pySplit B)) := by
  unfold diff_pairs countNE
  rw [List.length_map]

theorem mergeLoop_all_true {o c : List String} {mask : List Bool} :
    ∀ (ops : List Opcode) (i j idx : Nat), OpsChain o c i j ops →
      (∀ t, t < countNE ops → mask.getD (idx + t) false = true) →
      mergeLoop o c mask ops idx = c.drop j := by
  intro ops
  induction ops with
  | nil =>
    intro i j idx h _
    rw [h.2]
    exact (List.drop_eq_nil_of_le (Nat.le_refl _)).symm
  | cons op rest ih =>
    intro i j idx h hmask
    obtain ⟨h1, h2, h3, h4, h5, h6, h7, h8, h9, h10⟩ := h
    unfold mergeLoop
    by_cases ht : op.tag = Tag.equal
    · rw [if_pos ht]
      rw [ih op.i2 op.j2 idx h10 (by
        intro t htlt
        exact hmask t (by rwa [countNE_cons_eq ht]))]
      rw [h1, h2] at h7
      rw [h1, h7 ht]
      exact pySlice_append_drop c h4
    · rw [if_neg ht]
      have hacc : mask.getD idx false = true := by
        have := hmask 0 (by rw [countNE_cons_ne ht]; omega)
        simpa using this
      have hrest : mergeLoop o c mask rest (idx + 1) = c.drop op.j2 :=
        ih op.i2 op.j2 (idx + 1) h10 (by
          intro t htlt
          have := hmask (t + 1) (by rw [countNE_cons_ne ht]; omega)
          rwa [show idx + (t + 1) = idx + 1 + t by omega] at this)
      have hcontrib :
          (if op.tag = Tag.replace ∨ op.tag = Tag.insert then
            (if mask.getD idx false then pySlice c op.j1 op.j2
             else pySlice o op.i1 op.i2)
          else
            (if mask.getD idx false then []
             else pySlice o op.i1 op.i2)) = pySlice c j op.j2 := by
        by_cases hri : op.tag = Tag.replace ∨ op.tag = Tag.insert
        · rw [if_pos hri, if_pos hacc, h2]
        · rw [if_neg hri, if_pos hacc]
          have hdel : op.tag = Tag.delete := by
            cases htag : op.tag
            · exact absurd htag ht
            · exact absurd (Or.inl htag) hri
            · exact absurd (Or.inr htag) hri
            · rfl
          have := h9 hdel
          rw [h2] at this
          unfold pySlice
          rw [← this]
          simp
      rw [hcontrib, hrest]
      exact pySlice_append_drop c h4

theorem mergeLoop_all_false {o c : List String} {mask : List Bool} :
    ∀ (ops : List Opcode) (i j idx : Nat), OpsChain o c i j ops →
      (∀ t, t < countNE ops → mask.getD (idx + t) false = false) →
      mergeLoop o c mask ops idx = o.drop i := by
  intro ops
  induction ops with
  | nil =>
    intro i j idx h _
    rw [h.1]
    exact (List.drop_eq_nil_of_le (Nat.le_refl _)).symm
  | cons op rest ih =>
    intro i j idx h hmask
    obtain ⟨h1, h2, h3, h4, h5, h6, h7, h8, h9, h10⟩ := h
    unfold mergeLoop
    by_cases ht : op.tag = Tag.equal
    · rw [if_pos ht]
      rw [ih op.i2 op.j2 idx h10 (by
        intro t htlt
        exact hmask t (by rwa [countNE_cons_eq ht])), h1]
      exact pySlice_append_drop o h3
    · rw [if_neg ht]
      have hacc : mask.getD idx false = false := by
        have := hmask 0 (by rw [countNE_cons_ne ht]; omega)
        simpa using this
      have hrest : mergeLoop o c mask rest (idx + 1) = o.drop op.i2 :=
        ih op.i2 op.j2 (idx + 1) h10 (by
          intro t htlt
          have := hmask (t + 1) (by rw [countNE_cons_ne ht]; omega)
          rwa [show idx + (t + 1) = idx + 1 + t by omega] at this)
      have hcontrib :
          (if op.tag = Tag.replace ∨ op.tag = Tag.insert then
            (if mask.getD idx false then pySlice c op.j1 op.j2
             else pySlice o op.i1 op.i2)
          else
            (if mask.getD idx false then []
             else pySlice o op.i1 op.i2)) = pySlice o i op.i2 := by
        rw [hacc]
        by_cases hri : op.tag = Tag.replace ∨ op.tag = Tag.insert
        · rw [if_pos hri]
          simp [h1]
        · rw [if_neg hri]
          simp [h1]
      rw [hcontrib, hrest]
      exact pySlice_append_drop o h3

theorem mergeLoop_mask_congr {o c : List String} {m1 m2 : List Bool} :
    ∀ (ops : List Opcode) (idx : Nat),
      (∀ t, t < countNE ops → m1.getD (idx + t) false = m2.getD (idx + t) false) →
      mergeLoop o c m1 ops idx = mergeLoop o c m2 ops idx := by
  intro ops
  induction ops with
  | nil => intro idx _; rfl
  | cons op rest ih =>
    intro idx hagree
    unfold mergeLoop
    by_cases ht : op.tag = Tag.equal
    · rw [if_pos ht, if_pos ht]
      rw [ih idx (by
        intro t htlt
        exact hagree t (by rwa [countNE_cons_eq ht]))]
    · rw [if_neg ht, if_neg ht]
      have hacc : m1.getD idx false = m2.getD idx false := by
        have := hagree 0 (by rw [countNE_cons_ne ht]; omega)
        simpa using this
      rw [hacc]
      rw [ih (idx + 1) (by
        intro t htlt
        have := hagree (t + 1) (by rw [countNE_cons_ne ht]; omega)
        rwa [show idx + (t + 1) = idx + 1 + t by omega] at this)]

theorem getD_append_replicate_false (mask : List Bool) (p t : Nat) :
    (mask ++ List.replicate p false).getD t false = mask.getD t false := by
  simp only [List.getD_eq_getElem?_getD]
  by_cases hlt : t < mask.length
  · rw [List.getElem?_append_left hlt]
  · rw [List.getElem?_append_right (by omega), List.getElem?_replicate,
      List.getElem?_eq_none (by omega)]
    by_cases h2 : t - mask.length < p
    · simp [h2]
    · simp [h2]

/-- C2: for all token sequences A and B, the diff engine's opcode sequence
covers every index of both sequences exactly once in left-to-right order,
concatenating the original-side token ranges of the equal/replace/delete
opcodes reconstructs A exactly, and concatenating the candidate-side token
ranges of the equal/replace/insert opcodes reconstructs B exactly. -/
theorem get_opcodes_roundtrip (A B : List String) :
    Covers A.length B.length 0 0 (get_opcodes A B) ∧
    (get_opcodes A B).flatMap (beforeRange A) = A ∧
    (get_opcodes A B).flatMap (afterRange B) = B := by
  have h := opsChain_get_opcodes A B
  refine ⟨opsChain_covers _ 0 0 h, ?_, ?_⟩
  · rw [opsChain_before _ 0 0 h]
    exact List.drop_zero _
  · rw [opsChain_after _ 0 0 h]
    exact List.drop_zero _

/-- C3: selective merge with an all-true accept mask, one entry per
non-equal opcode, returns the candidate text's tokens rejoined with single
spaces: apply_selected_edits(A, B, all-true) equals " ".join(B.split()). -/
theorem apply_selected_edits_all_true (A B : String) :
    apply_selected_edits A B (List.replicate (diff_pairs A B).length true) =
    String.intercalate " " (pySplit B) := by
  show String.intercalate " "
      (mergeLoop (pySplit A) (pySplit B)
        (List.replicate (diff_pairs A B).length true)
        (get_opcodes (pySplit A) (pySplit B)) 0) = _
  congr 1
  rw [mergeLoop_all_true (get_opcodes (pySplit A) (pySplit B)) 0 0 0
    (opsChain_get_opcodes _ _) (by
      intro t ht
      rw [← diff_pairs_length A B] at ht
      simp [List.getD_eq_getElem?_getD, List.getElem?_replicate, ht])]
  exact List.drop_zero _

/-- C4: selective merge with an all-false accept mask returns the original
text's tokens rejoined with single spaces: apply_selected_edits(A, B,
all-false) equals " ".join(A.split()). -/
theorem apply_selected_edits_all_false (A B : String) :
    apply_selected_edits A B (List.replicate (diff_pairs A B).length false) =
    String.intercalate " " (pySplit A) := by
  show String.intercalate " "
      (mergeLoop (pySplit A) (pySplit B)
        (List.replicate (diff_pairs A B).length false)
        (get_opcodes (pySplit A) (pySplit B)) 0) = _
  congr 1
  rw [mergeLoop_all_false (get_opcodes (pySplit A) (pySplit B)) 0 0 0
    (opsChain_get_opcodes _ _) (by
      intro t ht
      simp only [List.getD_eq_getElem?_getD, List.getElem?_replicate]
      split
      · rfl
      · rfl)]
  exact List.drop_zero _

/-- C7: an accept mask shorter than the number of non-equal opcodes does not
raise (the source guards every mask access with a bounds check, and the
embedding is a total function), and each missing entry behaves as reject:
the result equals the one for the mask padded with false entries. -/
theorem apply_selected_edits_short_mask (A B : String) (mask : List Bool)
    (h : mask.length < (diff_pairs A B).length) :
    apply_selected_edits A B mask =
    apply_selected_edits A B
      (mask ++ List.replicate ((diff_pairs A B).length - mask.length) false) := by
  show String.intercalate " "
      (mergeLoop (pySplit A) (pySplit B) mask
        (get_opcodes (pySplit A) (pySplit B)) 0) =
    String.intercalate " "
      (mergeLoop (pySplit A) (pySplit B)
        (mask ++ List.replicate ((diff_pairs A B).length - mask.length) false)
        (get_opcodes (pySplit A) (pySplit B)) 0)
  congr 1
  apply mergeLoop_mask_congr
  intro t _
  rw [getD_append_replicate_false]

/-- Witness for C7 on original "a b", candidate "a c" and the empty mask. -/
theorem apply_selected_edits_short_mask_witness :
    ([] : List Bool).length < (diff_pairs "a b" "a c").length ∧
    apply_selected_edits "a b" "a c" [] =
      apply_selected_edits "a b" "a c"
        (([] : List Bool) ++
          List.replicate ((diff_pairs "a b" "a c").length - ([] : List Bool).length)
            false) :=
  ⟨by decide, apply_selected_edits_short_mask "a b" "a c" [] (by decide)⟩

/-- C10: the merged output depends only on the first k accept-mask entries,
where k is the number of non-equal opcodes: two masks that agree on those
entries (a missing entry reading as false) give identical output, so
entries beyond k never influence the result. -/
theorem apply_selected_edits_mask_agree (A B : String) (m1 m2 : List Bool)
    (h : ∀ t, t < (diff_pairs A B).length → m1.getD t false = m2.getD t false) :
    apply_selected_edits A B m1 = apply_selected_edits A B m2 := by
  show String.intercalate " "
      (mergeLoop (pySplit A) (pySplit B) m1
        (get_opcodes (pySplit A) (pySplit B)) 0) =
    String.intercalate " "
      (mergeLoop (pySplit A) (pySplit B) m2
        (get_opcodes (pySplit A) (pySplit B)) 0)
  congr 1
  apply mergeLoop_mask_congr
  intro t ht
  rw [Nat.zero_add]
  refine h t ?_
  rw [diff_pairs_length A B]
  exact ht

/-- Witness for C10: masks [true] and [true, false, true] agree on the one
non-equal opcode of "a b" vs "a c" and give the same output. -/
theorem apply_selected_edits_mask_agree_witness :
    (∀ t, t < (diff_pairs "a b" "a c").length →
      ([true] : List Bool).getD t false = ([true, false, true] : List Bool).getD t false) ∧
    apply_selected_edits "a b" "a c" [true] =
      apply_selected_edits "a b" "a c" [true, false, true] :=
  ⟨by decide, apply_selected_edits_mask_agree "a b" "a c" [true] [true, false, true]
    (by decide)⟩

/-! Combinatorics of the placeholder keys, for the masking round trip. -/

/-- pat occurs in s at position i. -/
def OccursAt (s pat : List Char) (i : Nat) : Prop := pat <+: s.drop i

/-- s contains no occurrence of the placeholder marker. -/
def MarkerFree (s : List Char) : Prop := ¬ markerL <:+: s

theorem isInfix_iff_occursAt {s pat : List Char} :
    pat <:+: s ↔ ∃ i, OccursAt s pat i := by
  constructor
  · rintro ⟨u, v, huv⟩
    refine ⟨u.length, ?_⟩
    unfold OccursAt
    rw [← huv, List.append_assoc, List.drop_left]
    exact ⟨v, rfl⟩
  · rintro ⟨i, t, ht⟩
    exact ⟨s.take i, t, by rw [List.append_assoc, ht, List.take_append_drop]⟩

theorem pf_take {p s : List Char} (h : p <+: s) : s.take p.length = p := by
  obtain ⟨t, ht⟩ := h
  rw [← ht, List.take_left]

theorem take_pf (n : Nat) (s : List Char) : s.take n <+: s :=
  ⟨s.drop n, List.take_append_drop n s⟩

theorem pf_of_take {p s : List Char} (h : s.take p.length = p) : p <+: s := by
  rw [← h]
  exact take_pf _ s

theorem pf_append_reduce {p u v : List Char} (h : p <+: u ++ v)
    (hlen : p.length ≤ u.length) : p <+: u := by
  apply pf_of_take
  rw [← List.take_append_of_le_length hlen]
  exact pf_take h

theorem infix_of_pf_drop {p s : List Char} {i : Nat} (h : p <+: s.drop i) :
    p <:+: s :=
  List.IsInfix.trans h.isInfix (List.drop_suffix i s).isInfix

theorem markerFree_of_infix {x s : List Char} (hx : x <:+: s)
    (hs : MarkerFree s) : MarkerFree x :=
  fun h => hs (h.trans hx)

theorem marker_no_overlap :
    ∀ t, 0 < t → t < 14 → markerL.drop t ≠ markerL.take (14 - t) := by
  intro t h1 h2
  interval_cases t <;> decide

theorem markerL_ne_nil : markerL ≠ [] := by decide

theorem markerL_len : markerL.length = 14 := by decide

/-- Any character in the tail of a placeholder key (digits then three
closing brackets) differs from the opening bracket that starts the
marker. -/
theorem keyTail_chars (n : Nat) :
    ∀ ch ∈ digitsChars n ++ "]]]".toList, ch ≠ '[' := by
  intro ch hch
  rw [List.mem_append] at hch
  rcases hch with hd | hj
  · unfold digitsChars at hd
    by_cases hn : n = 0
    · rw [if_pos hn] at hd
      simp at hd
      subst hd
      decide
    · rw [if_neg hn] at hd
      obtain ⟨d, hdm, hde⟩ := List.mem_map.mp hd
      have hd10 : d < 10 :=
        Nat.digits_lt_base (by norm_num) (List.mem_reverse.mp hdm)
      subst hde
      interval_cases d <;> decide
  · simp at hj
    subst hj
    decide

theorem digitsChars_no_rbrack (n : Nat) : ∀ ch ∈ digitsChars n, ch ≠ ']' := by
  intro ch hch
  unfold digitsChars at hch
  by_cases hn : n = 0
  · rw [if_pos hn] at hch
    simp at hch
    subst hch
    decide
  · rw [if_neg hn] at hch
    obtain ⟨d, hdm, hde⟩ := List.mem_map.mp hch
    have hd10 : d < 10 :=
      Nat.digits_lt_base (by norm_num) (List.mem_reverse.mp hdm)
    subst hde
    interval_cases d <;> decide

theorem digitChar_inj_lt {d e : Nat} (hd : d < 10) (he : e < 10)
    (h : Nat.digitChar d = Nat.digitChar e) : d = e := by
  interval_cases d <;> interval_cases e <;> first | rfl | exact absurd h (by decide)

theorem map_digitChar_inj : ∀ (l1 l2 : List Nat), (∀ x ∈ l1, x < 10) →
    (∀ x ∈ l2, x < 10) → l1.map Nat.digitChar = l2.map Nat.digitChar → l1 = l2
  | [], [], _, _, _ => rfl
  | [], _ :: _, _, _, h => by simp at h
  | _ :: _, [], _, _, h => by simp at h
  | x :: xs, y :: ys, h1, h2, h => by
    simp only [List.map_cons, List.cons.injEq] at h
    have hx := h1 x (List.mem_cons_self x xs)
    have hy := h2 y (List.mem_cons_self y ys)
    rw [digitChar_inj_lt hx hy h.1,
      map_digitChar_inj xs ys (fun z hz => h1 z (List.mem_cons_of_mem _ hz))
        (fun z hz => h2 z (List.mem_cons_of_mem _ hz)) h.2]

theorem digitsChars_inj {d e : Nat} (h : digitsChars d = digitsChars e) : d = e := by
  unfold digitsChars at h
  by_cases hd : d = 0 <;> by_cases he : e = 0
  · omega
  · rw [if_pos hd, if_neg he] at h
    obtain ⟨x, hx⟩ : ∃ x, Nat.digits 10 e = [x] := by
      rcases hdig : Nat.digits 10 e with _ | ⟨x, xs⟩
      · have := congrArg List.length h
        simp [hdig] at this
      · have := congrArg List.length h
        rcases xs with _ | ⟨y, ys⟩
        · exact ⟨x, rfl⟩
        · simp [hdig] at this
    rw [hx] at h
    simp at h
    have hx10 : x < 10 := Nat.digits_lt_base (by norm_num) (by rw [hx]; exact List.mem_singleton.mpr rfl)
    have hx0 : x = 0 := by
      have : Nat.digitChar x = '0' := h.symm
      interval_cases x <;> first | rfl | exact absurd this (by decide)
    have := Nat.ofDigits_digits 10 e
    rw [hx, hx0] at this
    simp [Nat.ofDigits] at this
    omega
  · rw [if_neg hd, if_pos he] at h
    obtain ⟨x, hx⟩ : ∃ x, Nat.digits 10 d = [x] := by
      rcases hdig : Nat.digits 10 d with _ | ⟨x, xs⟩
      · have := congrArg List.length h
        simp [hdig] at this
      · have := congrArg List.length h
        rcases xs with _ | ⟨y, ys⟩
        · exact ⟨x, rfl⟩
        · simp [hdig] at this
    rw [hx] at h
    simp at h
    have hx10 : x < 10 := Nat.digits_lt_base (by norm_num) (by rw [hx]; exact List.mem_singleton.mpr rfl)
    have hx0 : x = 0 := by
      have : Nat.digitChar x = '0' := h
      interval_cases x <;> first | rfl | exact absurd this (by decide)
    have := Nat.ofDigits_digits 10 d
    rw [hx, hx0] at this
    simp [Nat.ofDigits] at this
    omega
  · rw [if_neg hd, if_neg he] at h
    have h1 : (Nat.digits 10 d).reverse = (Nat.digits 10 e).reverse :=
      map_digitChar_inj _ _
        (fun x hx => Nat.digits_lt_base (by norm_num) (List.mem_reverse.mp hx))
        (fun x hx => Nat.digits_lt_base (by norm_num) (List.mem_reverse.mp hx)) h
    have h2 : Nat.digits 10 d = Nat.digits 10 e := by
      have := congrArg List.reverse h1
      simpa using this
    exact Nat.digits_inj_iff.mp h2

theorem pf_eq_of_length {p1 p2 s : List Char} (h1 : p1 <+: s) (h2 : p2 <+: s)
    (hl : p1.length = p2.length) : p1 = p2 := by
  rw [← pf_take h1, hl, pf_take h2]

theorem codeBlockKey_eq (e : Nat) :
    codeBlockKey e = markerL ++ (digitsChars e ++ "]]]".toList) := by
  unfold codeBlockKey
  rw [List.append_assoc]

theorem codeBlockKey_len (e : Nat) :
    (codeBlockKey e).length = 14 + (digitsChars e ++ "]]]".toList).length := by
  rw [codeBlockKey_eq, List.length_append, markerL_len]

theorem codeBlockKey_ne_nil (e : Nat) : codeBlockKey e ≠ [] := by
  rw [codeBlockKey_eq]
  intro h
  have := congrArg List.length h
  rw [List.length_append, markerL_len] at this
  simp at this

theorem marker_pf_key (e : Nat) : markerL <+: codeBlockKey e := by
  rw [codeBlockKey_eq]
  exact ⟨_, rfl⟩

/-- An occurrence of the marker inside key ++ R starts at 0 or beyond the
key: it cannot start strictly inside the key. -/
theorem marker_occ_in_key_append (e : Nat) (R : List Char) (t : Nat)
    (h : OccursAt (codeBlockKey e ++ R) markerL t) :
    t = 0 ∨ (codeBlockKey e).length ≤ t := by
  by_cases ht0 : t = 0
  · exact Or.inl ht0
  by_cases htk : (codeBlockKey e).length ≤ t
  · exact Or.inr htk
  exfalso
  push_neg at htk
  unfold OccursAt at h
  by_cases ht14 : t < 14
  · have hsplit : (codeBlockKey e ++ R).drop t =
        markerL.drop t ++ ((digitsChars e ++ "]]]".toList) ++ R) := by
      rw [codeBlockKey_eq, List.append_assoc,
        List.drop_append_of_le_length (by rw [markerL_len]; omega)]
    rw [hsplit] at h
    have htake : markerL.take (14 - t) <+:
        markerL.drop t ++ ((digitsChars e ++ "]]]".toList) ++ R) :=
      (take_pf (14 - t) markerL).trans h
    have hdrop : markerL.drop t <+:
        markerL.drop t ++ ((digitsChars e ++ "]]]".toList) ++ R) := ⟨_, rfl⟩
    have heq := pf_eq_of_length htake hdrop
      (by rw [List.length_take, List.length_drop, markerL_len]; omega)
    exact marker_no_overlap t (by omega) ht14 heq.symm
  · push_neg at ht14
    have hlen : t - 14 < (digitsChars e ++ "]]]".toList).length := by
      have := codeBlockKey_len e
      omega
    have hsplit : (codeBlockKey e ++ R).drop t =
        (digitsChars e ++ "]]]".toList).drop (t - 14) ++ R := by
      obtain ⟨u, hu⟩ : ∃ u, t = 14 + u := ⟨t - 14, by omega⟩
      subst hu
      rw [codeBlockKey_eq, List.append_assoc, Nat.add_sub_cancel_left,
        show (14 : Nat) + u = markerL.length + u from by rw [markerL_len],
        List.drop_append, List.drop_append_of_le_length (by omega)]
    rw [hsplit, List.drop_eq_getElem_cons hlen, List.cons_append] at h
    have hm : markerL = '[' :: markerL.drop 1 := by decide
    rw [hm, List.cons_prefix_cons] at h
    exact keyTail_chars e _ (List.getElem_mem hlen) h.1.symm

/-- Occurrences of the marker in X ++ key ++ R with marker-free X start
exactly at the key or beyond it. -/
theorem marker_occ_localize {X : List Char} (hX : MarkerFree X) (e : Nat)
    (R : List Char) (i : Nat)
    (h : OccursAt (X ++ (codeBlockKey e ++ R)) markerL i) :
    i = X.length ∨ X.length + (codeBlockKey e).length ≤ i := by
  unfold OccursAt at h
  by_cases hX1 : i + 14 ≤ X.length
  · exfalso
    rw [List.drop_append_of_le_length (by omega)] at h
    have : markerL <+: X.drop i :=
      pf_append_reduce h (by rw [List.length_drop, markerL_len]; omega)
    exact hX (infix_of_pf_drop this)
  · by_cases hX2 : i < X.length
    · exfalso
      rw [List.drop_append_of_le_length (by omega)] at h
      have htake : markerL.take (X.length - i) <+:
          X.drop i ++ (codeBlockKey e ++ R) :=
        (take_pf (X.length - i) markerL).trans h
      have hdrop : X.drop i <+: X.drop i ++ (codeBlockKey e ++ R) := ⟨_, rfl⟩
      have heq := pf_eq_of_length htake hdrop
        (by rw [List.length_take, List.length_drop, markerL_len]; omega)
      -- the dropped part of the marker equals the start of the key, which is
      -- the marker again: self overlap
      have h2 : markerL.drop (X.length - i) <+: codeBlockKey e ++ R := by
        obtain ⟨w, hw⟩ := h
        have hx := congrArg (List.drop (X.length - i)) hw
        rw [List.drop_append_of_le_length (by rw [markerL_len]; omega)] at hx
        rw [List.drop_left' (by rw [List.length_drop])] at hx
        exact ⟨w, hx⟩
      have h3 : markerL.drop (X.length - i) <+: markerL ++ ((digitsChars e ++ "]]]".toList) ++ R) := by
        rw [← List.append_assoc, ← codeBlockKey_eq]
        exact h2
      have h4 : markerL.drop (X.length - i) <+: markerL :=
        pf_append_reduce h3 (by rw [List.length_drop]; omega)
      have h5 : markerL.drop (X.length - i) = markerL.take (14 - (X.length - i)) := by
        apply pf_eq_of_length h4 (take_pf _ markerL)
        rw [List.length_take, List.length_drop, markerL_len]
        omega
      exact marker_no_overlap (X.length - i) (by omega) (by omega) h5
    · push_neg at hX2
      rw [List.drop_append_eq_append_drop,
        List.drop_eq_nil_of_le (by omega), List.nil_append] at h
      rcases marker_occ_in_key_append e R (i - X.length) h with h0 | hk
      · exact Or.inl (by omega)
      · exact Or.inr (by omega)

/-- Two bracket-terminated bracket-free words in prefix position agree. -/
theorem brack_terminated_pf :
    ∀ (a1 a2 u v : List Char), (∀ ch ∈ a1, ch ≠ ']') → (∀ ch ∈ a2, ch ≠ ']') →
      (a1 ++ ']' :: u <+: a2 ++ ']' :: v) → a1 = a2
  | [], [], _, _, _, _, _ => rfl
  | [], c :: a2, u, v, _, h2, h => by
    rw [List.nil_append, List.cons_append, List.cons_prefix_cons] at h
    exact absurd h.1.symm (h2 c (List.mem_cons_self c a2))
  | c :: a1, [], u, v, h1, _, h => by
    rw [List.nil_append, List.cons_append, List.cons_prefix_cons] at h
    exact absurd h.1 (h1 c (List.mem_cons_self c a1))
  | c :: a1, c2 :: a2, u, v, h1, h2, h => by
    rw [List.cons_append, List.cons_append, List.cons_prefix_cons] at h
    rw [h.1, brack_terminated_pf a1 a2 u v
      (fun ch hch => h1 ch (List.mem_cons_of_mem _ hch))
      (fun ch hch => h2 ch (List.mem_cons_of_mem _ hch)) h.2]

/-- A placeholder key that is a prefix of another key (with anything after
it) has the same index: the decimal digits are bracket-free, so the first
closing bracket delimits them unambiguously. -/
theorem key_pf_key {d e : Nat} {R : List Char}
    (h : codeBlockKey d <+: codeBlockKey e ++ R) : d = e := by
  rw [codeBlockKey_eq, codeBlockKey_eq, List.append_assoc] at h
  have h2 : digitsChars d ++ "]]]".toList <+:
      (digitsChars e ++ "]]]".toList) ++ R := by
    obtain ⟨w, hw⟩ := h
    rw [List.append_assoc] at hw
    exact ⟨w, List.append_cancel_left hw⟩
  have h3 : digitsChars d ++ ']' :: "]]".toList <+:
      digitsChars e ++ ']' :: ("]]".toList ++ R) := by
    have e1 : "]]]".toList = ']' :: "]]".toList := by decide
    rw [e1, List.append_assoc, List.cons_append] at h2
    exact h2
  exact digitsChars_inj (brack_terminated_pf _ _ _ _
    (digitsChars_no_rbrack d) (digitsChars_no_rbrack e) h3)

/-- Occurrences of a placeholder key in X ++ key e ++ R with marker-free X:
either exactly at the key (and then the keys agree) or beyond it. -/
theorem key_occ_localize {X : List Char} (hX : MarkerFree X) (e d : Nat)
    (R : List Char) (i : Nat)
    (h : OccursAt (X ++ (codeBlockKey e ++ R)) (codeBlockKey d) i) :
    (i = X.length ∧ d = e) ∨ X.length + (codeBlockKey e).length ≤ i := by
  have hm : OccursAt (X ++ (codeBlockKey e ++ R)) markerL i :=
    (marker_pf_key d).trans h
  rcases marker_occ_localize hX e R i hm with h0 | hk
  · subst h0
    unfold OccursAt at h
    rw [List.drop_left] at h
    exact Or.inl ⟨rfl, key_pf_key h⟩
  · exact Or.inr hk

/-- No occurrence of pat starts strictly inside A when scanning A ++ pat. -/
def NoEarly (A pat : List Char) : Prop :=
  ∀ i, i < A.length → ¬ pat <+: (A ++ pat).drop i

theorem noEarly_of_markerFree {X : List Char} (hX : MarkerFree X) (n : Nat) :
    NoEarly X (codeBlockKey n) := by
  intro i hi hpf
  have h : OccursAt (X ++ (codeBlockKey n ++ [])) (codeBlockKey n) i := by
    unfold OccursAt
    rw [List.append_nil]
    exact hpf
  rcases key_occ_localize hX n n [] i h with ⟨h0, _⟩ | hk
  · omega
  · omega

/-- A key occurrence at or beyond X ++ key inside X ++ key ++ R lies in R. -/
theorem key_occ_shift {X K R pat : List Char} {i : Nat}
    (h : pat <+: (X ++ (K ++ R)).drop i) (hik : X.length + K.length ≤ i) :
    pat <:+: R := by
  rw [List.drop_append_eq_append_drop, List.drop_eq_nil_of_le (by omega),
    List.nil_append, List.drop_append_eq_append_drop,
    List.drop_eq_nil_of_le (by omega), List.nil_append] at h
  exact infix_of_pf_drop h

theorem replaceAllGo_fuel_irrel {pat rep : List Char} :
    ∀ (f1 : Nat) (s : List Char) (f2 : Nat), s.length < f1 → s.length < f2 →
      replaceAllGo pat rep f1 s = replaceAllGo pat rep f2 s := by
  intro f1
  induction f1 with
  | zero => intro s f2 h1 _; omega
  | succ f1 ih =>
    intro s f2 h1 h2
    match f2, h2 with
    | f2 + 1, h2 =>
      match s with
      | [] => rfl
      | c :: cs =>
        unfold replaceAllGo
        by_cases hemp : pat.isEmpty
        · rw [if_pos hemp, if_pos hemp,
            ih cs f2 (by simp at h1; omega) (by simp at h2; omega)]
        · rw [if_neg hemp, if_neg hemp]
          by_cases hpre : pat.isPrefixOf (c :: cs)
          · rw [if_pos hpre, if_pos hpre]
            have hplen : 1 ≤ pat.length := by
              cases pat
              · simp at hemp
              · simp
            rw [ih ((c :: cs).drop pat.length) f2
              (by simp at h1 ⊢; omega) (by simp at h2 ⊢; omega)]
          · rw [if_neg hpre, if_neg hpre,
              ih cs f2 (by simp at h1; omega) (by simp at h2; omega)]

theorem replaceAll_no_occ {pat rep : List Char} (hne : pat ≠ []) :
    ∀ (fuel : Nat) (s : List Char), ¬ pat <:+: s →
      replaceAllGo pat rep fuel s = s := by
  intro fuel
  induction fuel with
  | zero => intro s _; rfl
  | succ fuel ih =>
    intro s hocc
    match s with
    | [] =>
      unfold replaceAllGo
      rw [if_neg (by simpa [List.isEmpty_iff] using hne)]
    | c :: cs =>
      unfold replaceAllGo
      rw [if_neg (by simpa [List.isEmpty_iff] using hne)]
      have hpre : ¬ pat.isPrefixOf (c :: cs) = true := by
        intro hp
        rw [List.isPrefixOf_iff_prefix] at hp
        exact hocc hp.isInfix
      rw [if_neg hpre]
      rw [ih cs (fun hinf => hocc (hinf.trans ⟨[c], [], by simp⟩))]

theorem replaceAllGo_split {pat rep R : List Char} (hne : pat ≠ []) :
    ∀ (A : List Char) (fuel : Nat), (A ++ pat ++ R).length < fuel →
      NoEarly A pat →
      replaceAllGo pat rep fuel (A ++ pat ++ R) =
        A ++ rep ++ replaceAll pat rep R := by
  intro A
  induction A with
  | nil =>
    intro fuel hfuel _
    match fuel, hfuel with
    | fuel + 1, hfuel =>
      match hp : pat, hne with
      | p :: pt, _ =>
        rw [List.nil_append]
        have hs : (p :: pt) ++ R = p :: (pt ++ R) := rfl
        rw [hs]
        simp only [replaceAllGo]
        rw [if_neg (by simp)]
        rw [if_pos (by
          rw [List.isPrefixOf_iff_prefix, ← hs]
          exact ⟨R, rfl⟩)]
        rw [← hs, List.drop_left, List.nil_append]
        congr 1
        unfold replaceAll
        apply replaceAllGo_fuel_irrel
        · simp at hfuel ⊢
          omega
        · omega
  | cons a A ih =>
    intro fuel hfuel hNE
    match fuel, hfuel with
    | fuel + 1, hfuel =>
      have hs : ((a :: A) ++ pat ++ R) = a :: (A ++ pat ++ R) := by simp
      rw [hs]
      simp only [replaceAllGo]
      rw [if_neg (by simpa [List.isEmpty_iff] using hne)]
      rw [if_neg (by
        intro hp
        rw [List.isPrefixOf_iff_prefix] at hp
        rw [← hs] at hp
        have h2 : pat <+: (a :: A) ++ pat :=
          pf_append_reduce hp (by simp; omega)
        exact hNE 0 (by simp) (by simpa using h2))]
      rw [ih fuel (by simp at hfuel ⊢; omega) (by
        intro i hi hpf
        exact hNE (i + 1) (by simp; omega) (by
          have e1 : ((a :: A) ++ pat).drop (i + 1) = (A ++ pat).drop i := rfl
          rwa [e1]))]
      simp

/-- Python replace on A ++ pat ++ R replaces the pat occurrence when no
occurrence starts inside A, and continues in R. -/
theorem replaceAll_split {pat rep A R : List Char} (hne : pat ≠ [])
    (hA : NoEarly A pat) :
    replaceAll pat rep (A ++ pat ++ R) = A ++ rep ++ replaceAll pat rep R := by
  unfold replaceAll
  exact replaceAllGo_split hne A _ (by omega) hA

theorem pySlice_markerFree {s : List Char} (hs : MarkerFree s) (i j : Nat) :
    MarkerFree (pySlice s i j) := by
  apply markerFree_of_infix _ hs
  unfold pySlice
  exact (take_pf _ _).isInfix.trans (List.drop_suffix i s).isInfix

theorem take_markerFree {s : List Char} (hs : MarkerFree s) (i : Nat) :
    MarkerFree (s.take i) :=
  markerFree_of_infix (take_pf i s).isInfix hs

theorem take_add_slice (s : List Char) {i m : Nat} (h : i ≤ m) :
    s.take i ++ pySlice s i m = s.take m := by
  have ht := List.take_add s i (m - i)
  rw [show i + (m - i) = m from by omega] at ht
  unfold pySlice
  exact ht.symm

theorem findTriple_some {s : List Char} {start p : Nat}
    (h : findTriple s start = some p) : start ≤ p ∧ tripleAt s p := by
  unfold findTriple at h
  have hmem := List.mem_of_find?_eq_some h
  have hprop := List.find?_some h
  rw [List.mem_range'] at hmem
  constructor
  · obtain ⟨i, _, hi⟩ := hmem
    omega
  · unfold tripleAt
    simpa using hprop

theorem findOpenClose_some {s : List Char} {pos p q : Nat}
    (h : findOpenClose s pos = some (p, q)) :
    pos ≤ p ∧ p + 3 ≤ q ∧ tripleAt s p ∧ tripleAt s q := by
  unfold findOpenClose at h
  cases h1 : findTriple s pos with
  | none => rw [h1] at h; cases h
  | some p' =>
    rw [h1] at h
    simp only at h
    cases h2 : findTriple s (p' + 3) with
    | none => rw [h2] at h; cases h
    | some q' =>
      rw [h2] at h
      simp at h
      obtain ⟨e1, e2⟩ := h
      subst e1
      subst e2
      obtain ⟨ha, hb⟩ := findTriple_some h1
      obtain ⟨hc, hd⟩ := findTriple_some h2
      exact ⟨ha, hc, hb, hd⟩

theorem maskLoop_succ_none {s : List Char} {fuel pos cnt : Nat}
    (h : findOpenClose s pos = none) :
    maskLoop s (fuel + 1) pos cnt = (s.drop pos, []) := by
  conv_lhs => unfold maskLoop
  rw [h]

theorem maskLoop_succ_some {s : List Char} {fuel pos cnt p q : Nat}
    (h : findOpenClose s pos = some (p, q)) :
    maskLoop s (fuel + 1) pos cnt =
      (pySlice s pos p ++ codeBlockKey cnt ++ (maskLoop s fuel (q + 3) (cnt + 1)).1,
        (codeBlockKey cnt, pySlice s p (q + 3)) ::
          (maskLoop s fuel (q + 3) (cnt + 1)).2) := by
  conv_lhs => unfold maskLoop
  rw [h]

/-- Sequential replace of the blocks, the shape of unmask_code_blocks. -/
def unmaskFold (bs : List (List Char × List Char)) (t : List Char) : List Char :=
  bs.foldl (fun acc kv => replaceAll kv.1 kv.2 acc) t

/-- A key issued before the current block count never occurs in the masked
text produced from that count on. -/
theorem key_not_in_maskLoop {s : List Char} (hs : MarkerFree s) :
    ∀ (fuel pos cnt d : Nat), d < cnt →
      ¬ codeBlockKey d <:+: (maskLoop s fuel pos cnt).1 := by
  intro fuel
  induction fuel with
  | zero =>
    intro pos cnt d _ hocc
    exact hs (((marker_pf_key d).isInfix.trans hocc).trans
      (List.drop_suffix pos s).isInfix)
  | succ fuel ih =>
    intro pos cnt d hd hocc
    cases hoc : findOpenClose s pos with
    | none =>
      rw [maskLoop_succ_none hoc] at hocc
      exact hs (((marker_pf_key d).isInfix.trans hocc).trans
        (List.drop_suffix pos s).isInfix)
    | some pq =>
      obtain ⟨p, q⟩ := pq
      rw [maskLoop_succ_some hoc] at hocc
      simp only [List.append_assoc] at hocc
      obtain ⟨i, hi⟩ := isInfix_iff_occursAt.mp hocc
      rcases key_occ_localize (pySlice_markerFree hs pos p) cnt d _ i hi with
        ⟨_, hde⟩ | hk
      · omega
      · exact ih (q + 3) (cnt + 1) d (by omega)
          (key_occ_shift hi hk)

/-- The central masking round trip at the character level: folding the
replacements over the masked text restores the original marker-free text. -/
theorem maskLoop_roundtrip {s : List Char} (hs : MarkerFree s) :
    ∀ (fuel pos cnt : Nat),
      unmaskFold (maskLoop s fuel pos cnt).2
        (s.take pos ++ (maskLoop s fuel pos cnt).1) = s := by
  intro fuel
  induction fuel with
  | zero =>
    intro pos cnt
    exact List.take_append_drop pos s
  | succ fuel ih =>
    intro pos cnt
    cases hoc : findOpenClose s pos with
    | none =>
      rw [maskLoop_succ_none hoc]
      exact List.take_append_drop pos s
    | some pq =>
      obtain ⟨p, q⟩ := pq
      obtain ⟨hp1, hp2, -, -⟩ := findOpenClose_some hoc
      rw [maskLoop_succ_some hoc]
      show unmaskFold ((codeBlockKey cnt, pySlice s p (q + 3)) ::
          (maskLoop s fuel (q + 3) (cnt + 1)).2)
          (s.take pos ++ (pySlice s pos p ++ codeBlockKey cnt ++
            (maskLoop s fuel (q + 3) (cnt + 1)).1)) = s
      have hre : s.take pos ++ (pySlice s pos p ++ codeBlockKey cnt ++
          (maskLoop s fuel (q + 3) (cnt + 1)).1) =
          s.take p ++ codeBlockKey cnt ++ (maskLoop s fuel (q + 3) (cnt + 1)).1 := by
        rw [← List.append_assoc, ← List.append_assoc, take_add_slice s hp1]
      rw [hre]
      unfold unmaskFold
      rw [List.foldl_cons]
      have hsplit := @replaceAll_split (codeBlockKey cnt)
        (pySlice s p (q + 3))
        (s.take p) ((maskLoop s fuel (q + 3) (cnt + 1)).1)
        (codeBlockKey_ne_nil cnt)
        (noEarly_of_markerFree (take_markerFree hs p) cnt)
      rw [hsplit]
      have hnoocc : replaceAll (codeBlockKey cnt) (pySlice s p (q + 3))
          (maskLoop s fuel (q + 3) (cnt + 1)).1 =
          (maskLoop s fuel (q + 3) (cnt + 1)).1 := by
        unfold replaceAll
        exact replaceAll_no_occ (codeBlockKey_ne_nil cnt) _ _
          (key_not_in_maskLoop hs fuel (q + 3) (cnt + 1) cnt (by omega))
      rw [hnoocc]
      have htk : s.take p ++ pySlice s p (q + 3) = s.take (q + 3) :=
        take_add_slice s (by omega)
      rw [List.append_assoc, ← List.append_assoc, htk]
      exact ih (q + 3) (cnt + 1)

theorem unmaskFoldS_no_occ : ∀ (B : List (String × String)) (t : List Char),
    (∀ kv ∈ B, ¬ kv.1.toList <:+: t) →
    B.foldl (fun acc kv => replaceAll kv.1.toList kv.2.toList acc) t = t
  | [], _, _ => rfl
  | kv :: bs, t, h => by
    rw [List.foldl_cons]
    have hne : kv.1.toList ≠ [] := fun he =>
      h kv (List.mem_cons_self _ _) (by rw [he]; exact ⟨[], t, by simp⟩)
    have hrw : replaceAll kv.1.toList kv.2.toList t = t := by
      unfold replaceAll
      exact replaceAll_no_occ hne _ _ (h kv (List.mem_cons_self _ _))
    rw [hrw]
    exact unmaskFoldS_no_occ bs t (fun kv' hm => h kv' (List.mem_cons_of_mem _ hm))

theorem maskLoop_keys {s : List Char} :
    ∀ (fuel pos cnt : Nat) (kv : List Char × List Char),
      kv ∈ (maskLoop s fuel pos cnt).2 → ∃ n, kv.1 = codeBlockKey n := by
  intro fuel
  induction fuel with
  | zero =>
    intro pos cnt kv hm
    simp [maskLoop] at hm
  | succ fuel ih =>
    intro pos cnt kv hm
    cases hoc : findOpenClose s pos with
    | none =>
      rw [maskLoop_succ_none hoc] at hm
      simp at hm
    | some pq =>
      obtain ⟨p, q⟩ := pq
      rw [maskLoop_succ_some hoc] at hm
      rcases List.mem_cons.mp hm with he | hm'
      · exact ⟨cnt, by rw [he]⟩
      · exact ih (q + 3) (cnt + 1) kv hm'

theorem stringMk_toList (s : String) : String.mk s.toList = s := rfl

/-- The masking round trip for marker-free texts, shared by the claims on
mask/unmask. -/
theorem unmask_mask_helper (T : String) (h : ¬ markerL <:+: T.toList) :
    unmask_code_blocks (mask_code_blocks T).1 (mask_code_blocks T).2 = T := by
  unfold unmask_code_blocks mask_code_blocks
  simp only [List.foldl_map]
  have e : ((maskLoop T.toList (T.toList.length + 1) 0 0).2).foldl
      (fun t kv => replaceAll (String.mk kv.1).toList (String.mk kv.2).toList t)
      (String.mk ((maskLoop T.toList (T.toList.length + 1) 0 0).1)).toList =
      unmaskFold ((maskLoop T.toList (T.toList.length + 1) 0 0).2)
        ((maskLoop T.toList (T.toList.length + 1) 0 0).1) := rfl
  rw [e]
  have hrt := maskLoop_roundtrip (s := T.toList) h (T.toList.length + 1) 0 0
  simp only [List.take_zero, List.nil_append] at hrt
  rw [hrt]
  exact stringMk_toList T

/-- C1 fails as stated: a text that already contains a placeholder-shaped
substring next to a real code block is not reconstructed, because unmasking
replaces both occurrences of the placeholder with the block. -/
theorem mask_roundtrip_counterexample :
    unmask_code_blocks (mask_code_blocks "[[[CODE_BLOCK_0]]] ```x```").1
      (mask_code_blocks "[[[CODE_BLOCK_0]]] ```x```").2 ≠
      "[[[CODE_BLOCK_0]]] ```x```" := by
  decide

/-- C1 amended: for every text containing no occurrence of the placeholder
marker "[[[CODE_BLOCK_", masking then unmasking reconstructs the text
exactly. -/
theorem mask_roundtrip_marker_free (T : String) (h : ¬ markerL <:+: T.toList) :
    unmask_code_blocks (mask_code_blocks T).1 (mask_code_blocks T).2 = T :=
  unmask_mask_helper T h

/-- Witness for the amended C1 on a concrete marker-free text with a code
block. -/
theorem mask_roundtrip_marker_free_witness :
    (¬ markerL <:+: ("see ```print(1)``` here").toList) ∧
    unmask_code_blocks (mask_code_blocks "see ```print(1)``` here").1
      (mask_code_blocks "see ```print(1)``` here").2 =
      "see ```print(1)``` here" :=
  ⟨by decide, mask_roundtrip_marker_free "see ```print(1)``` here" (by decide)⟩

/-- C6 fails as stated for arbitrary block maps: a value that contains its
own key makes a second unmask pass change the text again. -/
theorem unmask_idempotent_counterexample :
    unmask_code_blocks (unmask_code_blocks "a" [("a", "aa")]) [("a", "aa")] ≠
      unmask_code_blocks "a" [("a", "aa")] := by
  decide

/-- C6 amended: unmask_code_blocks is total and best-effort — when no key of
the block map occurs in the text, the text is returned unchanged, so a
placeholder whose key is absent from the map is left in place rather than
causing an error — and re-unmasking the output of mask_code_blocks of a
marker-free text changes nothing (idempotence on the maps the program
actually produces; it fails for adversarial maps whose values reintroduce
keys, see the counterexample). -/
theorem unmask_best_effort :
    (∀ (T : String) (B : List (String × String)),
      (∀ kv ∈ B, ¬ kv.1.toList <:+: T.toList) → unmask_code_blocks T B = T) ∧
    (∀ T0 : String, ¬ markerL <:+: T0.toList →
      unmask_code_blocks
        (unmask_code_blocks (mask_code_blocks T0).1 (mask_code_blocks T0).2)
        (mask_code_blocks T0).2 =
      unmask_code_blocks (mask_code_blocks T0).1 (mask_code_blocks T0).2) := by
  have hbase : ∀ (T : String) (B : List (String × String)),
      (∀ kv ∈ B, ¬ kv.1.toList <:+: T.toList) → unmask_code_blocks T B = T := by
    intro T B h
    unfold unmask_code_blocks
    rw [unmaskFoldS_no_occ B T.toList h]
    exact stringMk_toList T
  refine ⟨hbase, ?_⟩
  intro T0 h
  rw [unmask_mask_helper T0 h]
  apply hbase
  intro kv hm hocc
  have hm' : kv ∈ ((maskLoop T0.toList (T0.toList.length + 1) 0 0).2).map
      (fun kv => (String.mk kv.1, String.mk kv.2)) := hm
  obtain ⟨kv0, hkv0, he⟩ := List.mem_map.mp hm'
  obtain ⟨n, hn⟩ := maskLoop_keys _ _ _ kv0 hkv0
  rw [← he] at hocc
  have e2 : ((String.mk kv0.1, String.mk kv0.2) : String × String).1.toList =
      kv0.1 := rfl
  rw [e2, hn] at hocc
  exact h ((marker_pf_key n).isInfix.trans hocc)

/-- Witness for the amended C6: a foreign placeholder survives unmasking
with a one-entry map, and re-unmasking masked output changes nothing. -/
theorem unmask_best_effort_witness :
    unmask_code_blocks "x [[[CODE_BLOCK_7]]] y" [("[[[CODE_BLOCK_0]]]", "```v```")] =
      "x [[[CODE_BLOCK_7]]] y" ∧
    unmask_code_blocks
      (unmask_code_blocks (mask_code_blocks "a ```b``` c").1
        (mask_code_blocks "a ```b``` c").2)
      (mask_code_blocks "a ```b``` c").2 =
    unmask_code_blocks (mask_code_blocks "a ```b``` c").1
      (mask_code_blocks "a ```b``` c").2 :=
  ⟨unmask_best_effort.1 "x [[[CODE_BLOCK_7]]] y" [("[[[CODE_BLOCK_0]]]", "```v```")]
    (by decide),
  unmask_best_effort.2 "a ```b``` c" (by decide)⟩

/-- C9: a text with no complete triple-backtick fenced span — in particular
one with an opening fence but no closing fence — is returned unchanged,
with an empty block map. -/
theorem mask_no_complete_fence (T : String)
    (h : ∀ p, p < T.toList.length → ∀ q, q < T.toList.length →
      tripleAt T.toList p → tripleAt T.toList q → q < p + 3) :
    mask_code_blocks T = (T, []) := by
  have hoc : findOpenClose T.toList 0 = none := by
    unfold findOpenClose
    cases h1 : findTriple T.toList 0 with
    | none => rfl
    | some p =>
      show Option.map (fun q => (p, q)) (findTriple T.toList (p + 3)) = none
      obtain ⟨-, hp⟩ := findTriple_some h1
      have hp' : (T.toList.drop p).take 3 = fenceL := hp
      have hplen : p + 3 ≤ T.toList.length := by
        have hlen3 := congrArg List.length hp'
        rw [List.length_take, List.length_drop] at hlen3
        have hf3 : (fenceL).length = 3 := rfl
        rw [hf3] at hlen3
        omega
      cases h2 : findTriple T.toList (p + 3) with
      | none => rfl
      | some q =>
        exfalso
        obtain ⟨hq3, hq⟩ := findTriple_some h2
        have hq' : (T.toList.drop q).take 3 = fenceL := hq
        have hqlen : q + 3 ≤ T.toList.length := by
          have hlen3 := congrArg List.length hq'
          rw [List.length_take, List.length_drop] at hlen3
          have hf3 : (fenceL).length = 3 := rfl
          rw [hf3] at hlen3
          omega
        have := h p (by omega) q (by omega) hp hq
        omega
  have hml : maskLoop T.toList (T.toList.length + 1) 0 0 = (T.toList, []) := by
    rw [maskLoop_succ_none hoc, List.drop_zero]
  show (String.mk (maskLoop T.toList (T.toList.length + 1) 0 0).1,
      ((maskLoop T.toList (T.toList.length + 1) 0 0).2).map
        (fun kv => (String.mk kv.1, String.mk kv.2))) = (T, [])
  rw [hml]
  exact congrArg (fun s => (s, ([] : List (String × String)))) (stringMk_toList T)

/-- Witness for C9 on a text with an unterminated opening fence. -/
theorem mask_no_complete_fence_witness :
    (∀ p, p < ("open ``` no close").toList.length →
      ∀ q, q < ("open ``` no close").toList.length →
      tripleAt ("open ``` no close").toList p →
      tripleAt ("open ``` no close").toList q → q < p + 3) ∧
    mask_code_blocks "open ``` no close" = ("open ``` no close", []) :=
  ⟨by decide, mask_no_complete_fence "open ``` no close" (by decide)⟩

theorem dropWhile_idem (p : Char → Bool) :
    ∀ l : List Char, (l.dropWhile p).dropWhile p = l.dropWhile p
  | [] => rfl
  | c :: cs => by
    rw [List.dropWhile_cons]
    by_cases hc : p c
    · rw [if_pos hc]
      exact dropWhile_idem p cs
    · rw [if_neg hc, List.dropWhile_cons, if_neg hc]

theorem dropWhile_length_le (p : Char → Bool) :
    ∀ l : List Char, (l.dropWhile p).length ≤ l.length
  | [] => Nat.le_refl 0
  | c :: cs => by
    rw [List.dropWhile_cons]
    by_cases hc : p c
    · rw [if_pos hc]
      exact Nat.le_trans (dropWhile_length_le p cs) (Nat.le_succ _)
    · rw [if_neg hc]

theorem dropWhile_reverse_dropWhile (p : Char → Bool) (A : List Char)
    (hA : A.dropWhile p = A) :
    ((A.reverse.dropWhile p).reverse).dropWhile p =
      (A.reverse.dropWhile p).reverse := by
  rcases hB : (A.reverse.dropWhile p).reverse with _ | ⟨c, rest⟩
  · rfl
  · obtain ⟨t, ht⟩ := List.dropWhile_suffix (l := A.reverse) p
    have hA2 : A = c :: (rest ++ t.reverse) := by
      have := congrArg List.reverse ht
      rw [List.reverse_append, List.reverse_reverse] at this
      rw [← this, hB]
      simp
    have hpc : p c = false := by
      by_contra hpc
      rw [Bool.not_eq_false] at hpc
      have h1 : A.dropWhile p = (rest ++ t.reverse).dropWhile p := by
        rw [hA2, List.dropWhile_cons, if_pos hpc]
      have h2 := dropWhile_length_le p (rest ++ t.reverse)
      rw [hA] at h1
      have := congrArg List.length h1
      rw [hA2] at this
      simp at this
      simp [List.length_append] at h2
      omega
    rw [List.dropWhile_cons, if_neg (by rw [hpc]; exact Bool.false_ne_true)]

theorem pyStrip_idem (s : String) : pyStrip (pyStrip s) = pyStrip s := by
  unfold pyStrip
  have e : (String.mk (((s.toList.dropWhile Char.isWhitespace).reverse.dropWhile
      Char.isWhitespace).reverse)).toList =
      ((s.toList.dropWhile Char.isWhitespace).reverse.dropWhile
        Char.isWhitespace).reverse := rfl
  rw [e]
  congr 1
  have h1 := dropWhile_reverse_dropWhile Char.isWhitespace
    (s.toList.dropWhile Char.isWhitespace) (dropWhile_idem _ _)
  rw [h1, List.reverse_reverse, dropWhile_idem]

/-- C8: when the extracted JSON value is not a list — a bare object, a
string, a number, or None from a failed extraction — get_gemini_analysis
degrades to exactly one synthetic suggestion wrapping the stripped raw
response text, with confidence 0.7 and empty explanations. -/
theorem gemini_fallback (raw language : String) (data : JVal)
    (h : ∀ items, data ≠ JVal.arr items) :
    get_gemini_analysis raw language data =
      some [{ corrected := pyStrip raw, confidence := 7/10,
              explanations := JVal.arr [],
              language := JVal.str (if language = "" then "Auto" else language),
              translation_en := JVal.null }] := by
  have hfb : cleanItems language [fallbackItem raw language] =
      some [{ corrected := pyStrip raw, confidence := 7/10,
              explanations := JVal.arr [],
              language := JVal.str (if language = "" then "Auto" else language),
              translation_en := JVal.null }] := by
    simp [cleanItems, fallbackItem, jGet, pyStripJ, pyFloat, pyStrip_idem]
  unfold get_gemini_analysis
  cases data with
  | arr items => exact absurd rfl (h items)
  | null => exact hfb
  | bool b => exact hfb
  | num q => exact hfb
  | str s => exact hfb
  | obj fields => exact hfb

/-- Witness for C8 at a concrete unparseable response. -/
theorem gemini_fallback_witness :
    get_gemini_analysis "  hi " "" JVal.null =
      some [{ corrected := "hi", confidence := 7/10, explanations := JVal.arr [],
              language := JVal.str "Auto", translation_en := JVal.null }] :=
  gemini_fallback "  hi " "" JVal.null (fun _ h => nomatch h)

/-- C5 fails as stated: get_gemini_analysis does not clamp the provider's
confidence; a confidence of 3/2 is passed through outside [0, 1]. -/
theorem gemini_confidence_counterexample :
    ((get_gemini_analysis "r" "Auto"
        (JVal.arr [JVal.obj [("corrected", JVal.str "x"),
          ("confidence", JVal.num (3/2))]])).getD []).map Suggestion.confidence =
      [(3 : ℚ)/2] ∧ ¬ ((3 : ℚ)/2 ≤ 1) := by
  constructor
  · rfl
  · norm_num

/-- C5 amended: get_gemini_analysis passes the provider confidence through
unclamped (float coercion, defaulting to 0.7 when missing); the clamping
into [0,1] happens at display time, where app.py line 167 renders
st.progress(min(max(confidence, 0.0), 1.0)), which always lies in [0,1]
and is the identity on in-range confidences. -/
theorem gemini_confidence_passthrough (q : ℚ) (raw language : String) :
    ((get_gemini_analysis raw language
        (JVal.arr [JVal.obj [("corrected", JVal.str "x"),
          ("confidence", JVal.num q)]])).getD []).map Suggestion.confidence = [q] ∧
    0 ≤ progress_value q ∧ progress_value q ≤ 1 ∧
    (0 ≤ q → q ≤ 1 → progress_value q = q) := by
  refine ⟨?_, ?_, ?_, ?_⟩
  · simp [get_gemini_analysis, cleanItems, jGet, pyStripJ, pyFloat]
  · exact le_min (le_max_right q 0) zero_le_one
  · exact min_le_right _ _
  · intro h1 h2
    unfold progress_value
    rw [max_eq_left h1, min_eq_left h2]

/-- Witness for the amended C5 at an out-of-range confidence 3/2. -/
theorem gemini_confidence_passthrough_witness :
    ((get_gemini_analysis "r0" "Auto"
        (JVal.arr [JVal.obj [("corrected", JVal.str "x"),
          ("confidence", JVal.num (3/2))]])).getD []).map Suggestion.confidence =
      [(3 : ℚ)/2] ∧
    0 ≤ progress_value ((3 : ℚ)/2) ∧ progress_value ((3 : ℚ)/2) ≤ 1 ∧
    (0 ≤ (3 : ℚ)/2 → (3 : ℚ)/2 ≤ 1 → progress_value ((3 : ℚ)/2) = (3 : ℚ)/2) :=
  gemini_confidence_passthrough ((3 : ℚ)/2) "r0" "Auto"
